import Mathlib

/-!
# Verification of the `claude-auto` task scheduler core

Shallow embedding of the Go sources of `nohdol97/claude-auto`:

* `pkg/types` — task data model (`Task`, `TaskStatus`).
* `internal/tasks` (`TaskManager`) — registry: `CreateTask`, `AddDependency`
  with DFS cycle probe, `UpdateTaskStatus`, `SetTaskResult`, `SetTaskError`,
  `GetAllTasks`, `GetTasksByStatus`, `GetExecutionOrder` (Kahn's algorithm).
* `internal/tasks` (`ParallelExecutor`) — `topologicalSort` batching,
  `executeBatch`, `executeTask`, `ExecuteTasks`.
* `internal/core` (`ClaudeExecutor`) — `executeWithRetry`, `executeOnce`,
  `IsRateLimitError`, `ParseRetryAfter`.
* `internal/core` (`RateLimiter`) — `Wait`, `SetRateLimit`, `Reset`.

Embedding conventions:

* The registry's Go map `map[string]*types.Task` is modelled as a `List Task`
  whose `id`s are pairwise distinct (`(taskIds reg).Nodup` in theorems), in
  some iteration order.  Go map iteration order is unspecified; the list
  order is one admissible order, and no verified statement depends on it.
* A Go pointer `*types.Task` handed out by the registry is modelled as the
  task's key (its `id`); writing through the pointer is an update of the
  store at that key.
* Wall-clock instants and durations are `Nat` (seconds); `time.Time` ordering
  `a.After(b)` over a sliding window is expressed additively to avoid
  truncated subtraction.
* Goroutine fan-out per batch is linearised: tasks of a batch are executed
  sequentially in batch order.  The claims verified here concern per-task
  results, recorded statuses and error plumbing, none of which depend on the
  interleaving; this is noted where relevant.
* Loops whose termination is not structural carry an explicit fuel that
  dominates the Go loop's iteration count.
-/

namespace ClaudeAuto

/-- Task execution status (`pkg/types`, `TaskStatus`). -/
inductive TaskStatus where
  | pending
  | inProgress
  | completed
  | failed
  | skipped
deriving DecidableEq, Repr

/-- A task (`pkg/types.Task`).  Fields that the verified operations never
read (`Type`, `Priority`, `Prompt`, `Context`, `RetryCount`, `CreatedAt`) are
omitted; they are carried passively in the Go code. -/
structure Task where
  id : String
  deps : List String
  status : TaskStatus := .pending
  result : String := ""
  error : Option String := none
  completedAt : Option Nat := none
deriving DecidableEq, Repr

/-- The ids of a task list, in order (the key set of the Go map). -/
def taskIds (tasks : List Task) : List String := tasks.map Task.id

/-- Direct dependency relation induced by a task set: `dependsOn tasks a b`
holds when the task with id `a` lists `b` among its dependency ids. -/
def dependsOn (tasks : List Task) (a b : String) : Prop :=
  ∃ t ∈ tasks, t.id = a ∧ b ∈ t.deps

/-- Every dependency id refers to a task of the set (a dangling id is the
"dependency referencing a task outside the current set" situation that the
scheduler treats like a cycle). -/
def ClosedDeps (tasks : List Task) : Prop :=
  ∀ t ∈ tasks, ∀ d ∈ t.deps, d ∈ taskIds tasks

/-- The dependency graph of the task set has no (directed) cycle. -/
def Acyclic (tasks : List Task) : Prop :=
  ∀ a, ¬ Relation.TransGen (dependsOn tasks) a a

/-- A concrete ranking certifies acyclicity. -/
lemma acyclic_of_rank (tasks : List Task) (rank : String → Nat)
    (h : ∀ t ∈ tasks, ∀ d ∈ t.deps, rank d < rank t.id) : Acyclic tasks := by
  intro a hcyc
  have key : ∀ x y, Relation.TransGen (dependsOn tasks) x y → rank y < rank x := by
    intro x y hxy
    induction hxy with
    | single h1 =>
      obtain ⟨t, ht, hid, hd⟩ := h1
      subst hid
      exact h t ht _ hd
    | tail _ h2 ih =>
      obtain ⟨t, ht, hid, hd⟩ := h2
      subst hid
      exact lt_trans (h t ht _ hd) ih
  exact absurd (key a a hcyc) (lt_irrefl _)

/-! ## `ParallelExecutor.topologicalSort`

The Go method also receives a forward-adjacency `graph` from which it
computes an in-degree map, but that map is never read afterwards (dead
code); the scan below uses only `GetAllTasks()`, each task's `Dependencies`
and the `processed` set, exactly as the Go loop body does. -/

/-- The scan condition of one pass: a task is admitted when it is not yet
processed and every dependency id is processed. -/
def readyTask (processed : List String) (t : Task) : Bool :=
  !(processed.contains t.id) && t.deps.all (fun d => processed.contains d)

/-- One `for len(processed) < len(tasks)` loop of `topologicalSort`.
`processed` models the Go `map[string]bool` by a duplicate-free list, so its
length is the map's size.  Fuel dominates the iteration count: every
iteration that recurses admits at least one task. -/
def topoLoop (tasks : List Task) : Nat → List String → List (List Task)
  | 0, _ => []
  | fuel+1, processed =>
    if processed.length < tasks.length then
      let batch := tasks.filter (readyTask processed)
      if batch.isEmpty then [] -- Go: `break` — no more tasks can be executed
      else batch :: topoLoop tasks fuel (processed ++ batch.map Task.id)
    else []

/-- `ParallelExecutor.topologicalSort` (the spec's `ComputeBatches`):
level-by-level batching of the registry's tasks.  Note the Go function has
no error return: on a cycle the loop simply stops. -/
def topologicalSort (tasks : List Task) : List (List Task) :=
  topoLoop tasks tasks.length []

/-- Demo tasks of the spec's batching scenario (§8). -/
def demoTasks : List Task :=
  [ { id := "init", deps := [] },
    { id := "db",   deps := ["init"] },
    { id := "api",  deps := ["db"] },
    { id := "ui",   deps := ["init"] },
    { id := "test", deps := ["api", "ui"] } ]

example :
    topologicalSort demoTasks =
      [ [{ id := "init", deps := [] }],
        [{ id := "db", deps := ["init"] }, { id := "ui", deps := ["init"] }],
        [{ id := "api", deps := ["db"] }],
        [{ id := "test", deps := ["api", "ui"] }] ] := by
  decide

lemma readyTask_iff {processed : List String} {t : Task} :
    readyTask processed t = true ↔ t.id ∉ processed ∧ ∀ d ∈ t.deps, d ∈ processed := by
  simp [readyTask, List.all_eq_true, List.contains, List.elem_iff]

/-- Tasks with pairwise distinct ids are determined by their id. -/
lemma id_inj {tasks : List Task} (hnd : (taskIds tasks).Nodup)
    {t u : Task} (ht : t ∈ tasks) (hu : u ∈ tasks) (h : t.id = u.id) : t = u :=
  List.inj_on_of_nodup_map hnd ht hu h

/-- While an unplaced task remains, the processed set is strictly smaller
than the task set. -/
lemma processed_lt_of_unplaced {tasks : List Task} {processed : List String}
    (hsub : ∀ x ∈ processed, x ∈ taskIds tasks) (hpn : processed.Nodup)
    {t : Task} (ht : t ∈ tasks) (hid : t.id ∉ processed) :
    processed.length < tasks.length := by
  have hmem : t.id ∈ taskIds tasks := List.mem_map_of_mem Task.id ht
  have hss : processed ⊆ (taskIds tasks).erase t.id := by
    intro x hx
    have hne : x ≠ t.id := fun h => hid (h ▸ hx)
    exact (List.mem_erase_of_ne hne).mpr (hsub x hx)
  have h1 : processed.length ≤ ((taskIds tasks).erase t.id).length :=
    (List.subperm_of_subset hpn hss).length_le
  have h2 : ((taskIds tasks).erase t.id).length = (taskIds tasks).length - 1 :=
    List.length_erase_of_mem hmem
  have h3 : (taskIds tasks).length = tasks.length := List.length_map _ _
  have h4 : 0 < tasks.length := List.length_pos.mpr (List.ne_nil_of_mem ht)
  omega

/-- Progress: in an acyclic, dependency-closed task set, any state with an
unplaced task admits at least one ready task (the scan cannot stall). -/
lemma exists_ready_task {tasks : List Task}
    (hc : ClosedDeps tasks) (ha : Acyclic tasks)
    (processed : List String) {t0 : Task} (ht0 : t0 ∈ tasks)
    (hun : t0.id ∉ processed) :
    ∃ t ∈ tasks, readyTask processed t = true := by
  classical
  haveI : Finite {x : String // x ∈ taskIds tasks} :=
    (List.finite_toSet (taskIds tasks)).to_subtype
  let q : {x : String // x ∈ taskIds tasks} → {x : String // x ∈ taskIds tasks} → Prop :=
    fun x y => Relation.TransGen (dependsOn tasks) y.1 x.1
  haveI : IsTrans _ q := ⟨fun _ _ _ hxy hyz => hyz.trans hxy⟩
  haveI : IsIrrefl _ q := ⟨fun x hx => ha x.1 hx⟩
  have hwf : WellFounded q := Finite.wellFounded_of_trans_of_irrefl q
  have ht0id : t0.id ∈ taskIds tasks := List.mem_map_of_mem Task.id ht0
  obtain ⟨m, hm, hmin⟩ := hwf.has_min
    {x : {x : String // x ∈ taskIds tasks} | x.1 ∉ processed} ⟨⟨t0.id, ht0id⟩, hun⟩
  obtain ⟨tm, htm, htmid⟩ : ∃ t ∈ tasks, t.id = m.1 := by
    obtain ⟨t, ht, hid⟩ := List.mem_map.mp m.2
    exact ⟨t, ht, hid⟩
  refine ⟨tm, htm, readyTask_iff.mpr ⟨htmid ▸ hm, ?_⟩⟩
  intro d hd
  by_contra hdp
  have hdid : d ∈ taskIds tasks := hc tm htm d hd
  exact hmin ⟨d, hdid⟩ hdp (Relation.TransGen.single ⟨tm, htm, htmid, hd⟩)

/-- Unfolding equation for one loop iteration. -/
lemma topoLoop_succ (tasks : List Task) (f : Nat) (processed : List String) :
    topoLoop tasks (f+1) processed =
      if processed.length < tasks.length then
        (if (tasks.filter (readyTask processed)).isEmpty then []
         else (tasks.filter (readyTask processed)) ::
           topoLoop tasks f (processed ++ (tasks.filter (readyTask processed)).map Task.id))
      else [] := rfl

/-- Combined loop invariant of `topologicalSort`: every still-unplaced task
is placed (coverage), every placed task is a fresh task of the set whose
dependencies are already processed or in a strictly earlier batch, and the
batches are pairwise disjoint on ids.  Batch `k` is accessed as
`(…).getD k []`, which is `[]` beyond the end of the batch list. -/
lemma topoLoop_spec (tasks : List Task) (hnd : (taskIds tasks).Nodup)
    (hc : ClosedDeps tasks) (ha : Acyclic tasks) :
    ∀ (fuel : Nat) (processed : List String),
      (∀ x ∈ processed, x ∈ taskIds tasks) → processed.Nodup →
      tasks.length ≤ fuel + processed.length →
      (∀ t ∈ tasks, t.id ∉ processed →
        ∃ k, t ∈ (topoLoop tasks fuel processed).getD k []) ∧
      (∀ k, ∀ t ∈ (topoLoop tasks fuel processed).getD k [],
          t ∈ tasks ∧ t.id ∉ processed ∧
          ∀ d ∈ t.deps, d ∈ processed ∨
            ∃ j, j < k ∧ ∃ u ∈ (topoLoop tasks fuel processed).getD j [], u.id = d) ∧
      (∀ k j, k ≠ j →
        ∀ t ∈ (topoLoop tasks fuel processed).getD k [],
        ∀ u ∈ (topoLoop tasks fuel processed).getD j [], t.id ≠ u.id) := by
  intro fuel
  induction fuel with
  | zero =>
    intro processed hsub hpn hfuel
    refine ⟨?_, ?_, ?_⟩
    · intro t ht hid
      exact absurd (processed_lt_of_unplaced hsub hpn ht hid) (by omega)
    · intro k t htm; simp [topoLoop] at htm
    · intro k j hkj t htm; simp [topoLoop] at htm
  | succ f ih =>
    intro processed hsub hpn hfuel
    by_cases hguard : processed.length < tasks.length
    case neg =>
      have hB : topoLoop tasks (f+1) processed = [] := by
        rw [topoLoop_succ, if_neg hguard]
      refine ⟨?_, ?_, ?_⟩
      · intro t ht hid
        exact absurd (processed_lt_of_unplaced hsub hpn ht hid) hguard
      · intro k t htm; rw [hB] at htm; simp at htm
      · intro k j hkj t htm; rw [hB] at htm; simp at htm
    case pos =>
      by_cases hbe : (tasks.filter (readyTask processed)).isEmpty = true
      case pos =>
        have hB : topoLoop tasks (f+1) processed = [] := by
          rw [topoLoop_succ, if_pos hguard, if_pos hbe]
        refine ⟨?_, ?_, ?_⟩
        · intro t ht hid
          obtain ⟨u, hu, hru⟩ := exists_ready_task hc ha processed ht hid
          have hmem : u ∈ tasks.filter (readyTask processed) :=
            List.mem_filter.mpr ⟨hu, hru⟩
          rw [List.isEmpty_iff.mp hbe] at hmem
          simp at hmem
        · intro k t htm; rw [hB] at htm; simp at htm
        · intro k j hkj t htm; rw [hB] at htm; simp at htm
      case neg =>
        set batch := tasks.filter (readyTask processed) with hbatch
        have hB : topoLoop tasks (f+1) processed =
            batch :: topoLoop tasks f (processed ++ batch.map Task.id) := by
          rw [topoLoop_succ, if_pos hguard, if_neg hbe]
        have hbsub : ∀ u ∈ batch, u ∈ tasks := fun u hu => (List.mem_filter.mp hu).1
        have hbready : ∀ u ∈ batch, u.id ∉ processed ∧ ∀ d ∈ u.deps, d ∈ processed :=
          fun u hu => readyTask_iff.mp (List.mem_filter.mp hu).2
        have hbnd : (batch.map Task.id).Nodup :=
          ((List.filter_sublist tasks).map Task.id).nodup hnd
        have hbpos : 0 < batch.length :=
          List.length_pos.mpr (fun h => hbe (by simp [h]))
        have hsub' : ∀ x ∈ processed ++ batch.map Task.id, x ∈ taskIds tasks := by
          intro x hx
          rcases List.mem_append.mp hx with h | h
          · exact hsub x h
          · obtain ⟨u, hu, rfl⟩ := List.mem_map.mp h
            exact List.mem_map_of_mem Task.id (hbsub u hu)
        have hpn' : (processed ++ batch.map Task.id).Nodup := by
          refine List.Nodup.append hpn hbnd ?_
          intro x hxp hxb
          obtain ⟨u, hu, rfl⟩ := List.mem_map.mp hxb
          exact (hbready u hu).1 hxp
        have hfuel' : tasks.length ≤ f + (processed ++ batch.map Task.id).length := by
          rw [List.length_append, List.length_map]
          omega
        obtain ⟨IH1, IH2, IH3⟩ := ih (processed ++ batch.map Task.id) hsub' hpn' hfuel'
        have hmemP' : ∀ x, x ∈ processed ++ batch.map Task.id ↔
            x ∈ processed ∨ ∃ u, u ∈ batch ∧ u.id = x := by
          intro x
          rw [List.mem_append]
          constructor
          · rintro (h | h)
            · exact Or.inl h
            · obtain ⟨u, hu, rfl⟩ := List.mem_map.mp h
              exact Or.inr ⟨u, hu, rfl⟩
          · rintro (h | ⟨u, hu, rfl⟩)
            · exact Or.inl h
            · exact Or.inr (List.mem_map_of_mem Task.id hu)
        refine ⟨?_, ?_, ?_⟩
        · -- coverage
          intro t ht hid
          by_cases htb : t ∈ batch
          · exact ⟨0, by rw [hB]; simpa using htb⟩
          · have hid' : t.id ∉ processed ++ batch.map Task.id := by
              rw [hmemP']
              rintro (h | ⟨u, hu, huid⟩)
              · exact hid h
              · exact htb (id_inj hnd (hbsub u hu) ht huid ▸ hu)
            obtain ⟨k, hmem⟩ := IH1 t ht hid'
            exact ⟨k+1, by rw [hB]; simpa using hmem⟩
        · -- soundness and batch ordering
          intro k t htm
          rw [hB] at htm
          cases k with
          | zero =>
            simp only [List.getD_cons_zero] at htm
            obtain ⟨hid, hdeps⟩ := hbready t htm
            exact ⟨hbsub t htm, hid, fun d hd => Or.inl (hdeps d hd)⟩
          | succ k' =>
            simp only [List.getD_cons_succ] at htm
            obtain ⟨ht, hidP', hdeps'⟩ := IH2 k' t htm
            refine ⟨ht, fun h => hidP' (List.mem_append.mpr (Or.inl h)), ?_⟩
            intro d hd
            rcases hdeps' d hd with h | ⟨j, hjk, u, hu, huid⟩
            · rcases (hmemP' d).mp h with h | ⟨u, hu, huid⟩
              · exact Or.inl h
              · exact Or.inr ⟨0, Nat.succ_pos _, u, by rw [hB]; simpa using hu, huid⟩
            · exact Or.inr ⟨j+1, Nat.succ_lt_succ hjk, u, by rw [hB]; simpa using hu, huid⟩
        · -- disjointness of batches
          have haux : ∀ j, ∀ t ∈ batch,
              ∀ u ∈ (topoLoop tasks f (processed ++ batch.map Task.id)).getD j [],
              t.id ≠ u.id := by
            intro j t htb u hu heq
            have hidP' := (IH2 j u hu).2.1
            exact hidP' (List.mem_append.mpr (Or.inr (heq ▸ List.mem_map_of_mem Task.id htb)))
          intro k j hkj t htm u hum
          rw [hB] at htm hum
          cases k with
          | zero =>
            cases j with
            | zero => exact absurd rfl hkj
            | succ j' =>
              simp only [List.getD_cons_zero] at htm
              simp only [List.getD_cons_succ] at hum
              exact haux j' t htm u hum
          | succ k' =>
            cases j with
            | zero =>
              simp only [List.getD_cons_zero] at hum
              simp only [List.getD_cons_succ] at htm
              intro heq
              exact haux k' u hum t htm heq.symm
            | succ j' =>
              simp only [List.getD_cons_succ] at htm hum
              exact IH3 k' j' (fun h => hkj (by omega)) t htm u hum

/-- Claim C1: for every task set whose ids are distinct and whose dependency
graph is acyclic (in particular all dependency ids resolve inside the set),
`ParallelExecutor.topologicalSort` places every task into exactly one batch,
and every dependency id of a task in batch `k` names a task placed in a
batch of strictly smaller index.  Batch `k` is `(…).getD k []`, empty beyond
the end of the batch list. -/
theorem topologicalSort_batches (tasks : List Task)
    (hnd : (taskIds tasks).Nodup) (hc : ClosedDeps tasks) (ha : Acyclic tasks) :
    (∀ t ∈ tasks, ∃ k, t ∈ (topologicalSort tasks).getD k [] ∧
        ∀ j, t ∈ (topologicalSort tasks).getD j [] → j = k) ∧
    (∀ k, ∀ t ∈ (topologicalSort tasks).getD k [], ∀ d ∈ t.deps,
        ∃ j, j < k ∧ ∃ u ∈ (topologicalSort tasks).getD j [], u.id = d) := by
  obtain ⟨h1, h2, h3⟩ := topoLoop_spec tasks hnd hc ha tasks.length []
    (by simp) List.nodup_nil (by simp)
  constructor
  · intro t ht
    obtain ⟨k, hmem⟩ := h1 t ht (by simp)
    refine ⟨k, hmem, ?_⟩
    intro j hmem'
    by_contra hne
    exact h3 j k hne t hmem' t hmem rfl
  · intro k t hmem d hd
    obtain ⟨-, -, hdeps⟩ := h2 k t hmem
    rcases hdeps d hd with h | h
    · simp at h
    · exact h

/-- A ranking of the demo scenario certifying acyclicity. -/
def demoRank : String → Nat := fun s =>
  if s = "init" then 0
  else if s = "db" then 1
  else if s = "ui" then 1
  else if s = "api" then 2
  else 3

/-- Witness for C1 at the spec's five-task scenario (§8): discharges the
hypotheses of `topologicalSort_batches` on a concrete acyclic task set. -/
theorem topologicalSort_batches_witness :
    (taskIds demoTasks).Nodup ∧ ClosedDeps demoTasks ∧ Acyclic demoTasks ∧
    ∀ t ∈ demoTasks, ∃ k, t ∈ (topologicalSort demoTasks).getD k [] ∧
        ∀ j, t ∈ (topologicalSort demoTasks).getD j [] → j = k := by
  have hnd : (taskIds demoTasks).Nodup := by decide
  have hc : ClosedDeps demoTasks := by unfold ClosedDeps; decide
  have ha : Acyclic demoTasks := acyclic_of_rank _ demoRank (by decide)
  exact ⟨hnd, hc, ha, (topologicalSort_batches demoTasks hnd hc ha).1⟩

/-! ## `TaskManager.GetExecutionOrder` (Kahn's algorithm)

The Go method builds `graph[dep] = [ids of tasks listing dep]` and
`inDegree[id] = len(task.Dependencies)` (both by iterating the task map),
seeds a queue with all zero-in-degree ids, then repeatedly pops an id,
appends the corresponding task to the result, decrements the in-degree of
each graph successor and enqueues those hitting exactly zero.  In-degrees
are Go `int`s, hence `Int` here (a decrement below zero must not re-enqueue). -/

/-- The successor list `graph[current]`: one copy of `t.id` for every
occurrence of `current` among `t.deps`, in task order. -/
def successors (tasks : List Task) (current : String) : List String :=
  match tasks with
  | [] => []
  | t :: rest =>
      (t.deps.filter (fun d => d == current)).map (fun _ => t.id) ++
        successors rest current

/-- Processing one neighbour: decrement its in-degree and record it when the
degree hits exactly zero. -/
def kahnStep (p : (String → Int) × List String) (n : String) :
    (String → Int) × List String :=
  (fun s => if s = n then p.1 n - 1 else p.1 s,
   if p.1 n - 1 = 0 then p.2 ++ [n] else p.2)

/-- The inner `for _, neighbor := range graph[current]` loop. -/
def decrementSuccs (inDeg : String → Int) (succs : List String) :
    (String → Int) × List String :=
  succs.foldl kahnStep (inDeg, [])

/-- The outer `for len(queue) > 0` loop of `GetExecutionOrder`. -/
def kahnLoop (tasks : List Task) :
    Nat → List String → (String → Int) → List Task → List Task
  | 0, _, _, acc => acc
  | _+1, [], _, acc => acc
  | fuel+1, current :: rest, inDeg, acc =>
    let acc' := match tasks.find? (fun t => t.id == current) with
      | some t => acc ++ [t]
      | none => acc
    let p := decrementSuccs inDeg (successors tasks current)
    kahnLoop tasks fuel (rest ++ p.2) p.1 acc'

/-- Total number of dependency occurrences (edge count). -/
def totalDeps (tasks : List Task) : Nat :=
  (tasks.map (fun t => t.deps.length)).sum

/-- Initial in-degree map: `inDegree[id] = len(task.Dependencies)` for stored
ids, absent (0) otherwise. -/
def initialInDegree (tasks : List Task) : String → Int := fun s =>
  match tasks.find? (fun t => t.id == s) with
  | some t => (t.deps.length : Int)
  | none => 0

/-- Initial queue: ids of zero in-degree, i.e. dependency-free, tasks. -/
def initialQueue (tasks : List Task) : List String :=
  (tasks.filter (fun t => t.deps.isEmpty)).map Task.id

/-- The list produced by the Kahn loop.  The fuel dominates the Go loop's
iteration count (every id is enqueued at most once; the bound is generous). -/
def kahnResult (tasks : List Task) : List Task :=
  kahnLoop tasks (tasks.length + totalDeps tasks + 1)
    (initialQueue tasks) (initialInDegree tasks) []

/-- `TaskManager.GetExecutionOrder`: full topological ordering; reports
`dependency cycle detected` when the sort omitted any task. -/
def GetExecutionOrder (tasks : List Task) : Except String (List Task) :=
  if (kahnResult tasks).length = tasks.length then .ok (kahnResult tasks)
  else .error "dependency cycle detected"

/-- A two-task dependency cycle. -/
def cycTasks : List Task :=
  [ { id := "a", deps := ["b"] },
    { id := "b", deps := ["a"] } ]

example : (GetExecutionOrder demoTasks).isOk = true := by decide

example : GetExecutionOrder cycTasks = .error "dependency cycle detected" := rfl

example : topologicalSort cycTasks = [] := by decide

lemma foldl_kahnStep_fst :
    ∀ (succs : List String) (inDeg : String → Int) (acc0 : List String) (s : String),
      (succs.foldl kahnStep (inDeg, acc0)).1 s = inDeg s - (succs.count s : Int) := by
  intro succs
  induction succs with
  | nil => intro inDeg acc0 s; simp
  | cons n rest ihs =>
    intro inDeg acc0 s
    rw [List.foldl_cons, ihs]
    by_cases hsn : s = n
    · subst hsn
      simp [kahnStep, List.count_cons]
      omega
    · have : (n == s) = false := by simp [Ne.symm hsn]
      simp [kahnStep, hsn, List.count_cons, this]

lemma foldl_kahnStep_mem :
    ∀ (succs : List String) (inDeg : String → Int) (acc0 : List String) (x : String),
      x ∈ (succs.foldl kahnStep (inDeg, acc0)).2 ↔
        x ∈ acc0 ∨ (1 ≤ inDeg x ∧ inDeg x ≤ (succs.count x : Int)) := by
  intro succs
  induction succs with
  | nil =>
    intro inDeg acc0 x
    simp only [List.foldl_nil, List.count_nil, Nat.cast_zero]
    constructor
    · exact Or.inl
    · rintro (h | ⟨h1, h2⟩)
      · exact h
      · omega
  | cons n rest ihs =>
    intro inDeg acc0 x
    rw [List.foldl_cons, ihs]
    by_cases hxn : x = n
    · subst hxn
      by_cases hd : inDeg x - 1 = 0
      · have hmem : x ∈ (kahnStep (inDeg, acc0) x).2 := by
          simp [kahnStep, hd]
        have hcnt : (List.count x (x :: rest) : Int) = (List.count x rest : Int) + 1 := by
          simp [List.count_cons]
        constructor
        · intro _
          right
          constructor
          · omega
          · rw [hcnt]; omega
        · intro _
          exact Or.inl hmem
      · have hacc : (kahnStep (inDeg, acc0) x).2 = acc0 := by simp [kahnStep, hd]
        have hupd : (kahnStep (inDeg, acc0) x).1 x = inDeg x - 1 := by simp [kahnStep]
        rw [hacc, hupd]
        have hcnt : (List.count x (x :: rest) : Int) = (List.count x rest : Int) + 1 := by
          simp [List.count_cons]
        rw [hcnt]
        constructor
        · rintro (h | ⟨h1, h2⟩)
          · exact Or.inl h
          · exact Or.inr ⟨by omega, by omega⟩
        · rintro (h | ⟨h1, h2⟩)
          · exact Or.inl h
          · exact Or.inr ⟨by omega, by omega⟩
    · have hupd : (kahnStep (inDeg, acc0) n).1 x = inDeg x := by simp [kahnStep, hxn]
      have hmemacc : x ∈ (kahnStep (inDeg, acc0) n).2 ↔ x ∈ acc0 := by
        by_cases hd : inDeg n - 1 = 0
        · simp [kahnStep, hd, hxn]
        · simp [kahnStep, hd]
      have hcnt : (List.count x (n :: rest) : Int) = (List.count x rest : Int) := by
        have : (n == x) = false := by simp [Ne.symm hxn]
        simp [List.count_cons, this]
      rw [hupd, hmemacc, hcnt]

lemma foldl_kahnStep_nodup :
    ∀ (succs : List String) (inDeg : String → Int) (acc0 : List String),
      acc0.Nodup → (∀ n ∈ acc0, inDeg n ≤ 0) →
      (succs.foldl kahnStep (inDeg, acc0)).2.Nodup := by
  intro succs
  induction succs with
  | nil => intro inDeg acc0 h0 _; simpa using h0
  | cons n rest ihs =>
    intro inDeg acc0 h0 hneg
    simp only [List.foldl_cons, kahnStep]
    by_cases hd : inDeg n - 1 = 0
    · rw [if_pos hd]
      have hnacc : n ∉ acc0 := fun h => by have := hneg n h; omega
      refine ihs _ _ ?_ ?_
      · simp [List.nodup_append, h0, hnacc]
      · intro m hm
        rcases List.mem_append.mp hm with hm | hm
        · have hmn : m ≠ n := fun h => hnacc (h ▸ hm)
          simpa [hmn] using hneg m hm
        · simp at hm
          subst hm
          simp
          omega
    · rw [if_neg hd]
      refine ihs _ _ h0 ?_
      intro m hm
      by_cases hmn : m = n
      · subst hmn
        simp
        have := hneg m hm
        omega
      · simpa [hmn] using hneg m hm

lemma successors_subset :
    ∀ (tasks : List Task) (c x : String), x ∈ successors tasks c → x ∈ taskIds tasks := by
  intro tasks
  induction tasks with
  | nil => intro c x h; simp [successors] at h
  | cons t rest iht =>
    intro c x h
    rw [successors] at h
    rcases List.mem_append.mp h with h | h
    · obtain ⟨d, _, rfl⟩ := List.mem_map.mp h
      exact List.mem_map_of_mem Task.id (List.mem_cons_self t rest)
    · have := iht c x h
      simp [taskIds] at this ⊢
      tauto

lemma count_map_const (l : List String) (c x : String) :
    (l.map (fun _ => c)).count x = if x = c then l.length else 0 := by
  induction l with
  | nil => simp
  | cons a rest ihl =>
    rw [List.map_cons, List.count_cons, ihl]
    by_cases hxc : x = c
    · subst hxc; simp
    · have hcx : (c == x) = false := by simp [Ne.symm hxc]
      simp [hcx, hxc]

lemma count_eq_filter_length (l : List String) (c : String) :
    l.count c = (l.filter (fun d => d == c)).length := by
  induction l with
  | nil => simp
  | cons a rest ihl =>
    by_cases hac : a = c
    · subst hac; simp [List.count_cons, ihl]
    · have hacb : (a == c) = false := by simp [hac]
      simp [List.count_cons, ihl, hacb, List.filter_cons]

lemma count_successors (tasks : List Task) (hnd : (taskIds tasks).Nodup)
    (c : String) : ∀ t ∈ tasks, (successors tasks c).count t.id = t.deps.count c := by
  induction tasks with
  | nil => intro t ht; simp at ht
  | cons u rest iht =>
    have hnd' : (∀ x ∈ rest, ¬ x.id = u.id) ∧ (List.map Task.id rest).Nodup := by
      simpa [taskIds] using hnd
    have hnd1 : u.id ∉ taskIds rest := by
      intro h
      obtain ⟨x, hx, hxid⟩ := List.mem_map.mp h
      exact hnd'.1 x hx hxid
    have hnd2 : (taskIds rest).Nodup := hnd'.2
    intro t ht
    rw [successors, List.count_append]
    rcases List.mem_cons.mp ht with rfl | ht
    · have h2 : (successors rest c).count t.id = 0 :=
        List.count_eq_zero.mpr (fun h => hnd1 (successors_subset rest c t.id h))
      rw [h2, count_map_const, count_eq_filter_length]
      simp
    · have hne : t.id ≠ u.id := by
        intro h
        exact hnd1 (h ▸ List.mem_map_of_mem Task.id ht)
      rw [count_map_const, if_neg hne, iht hnd2 t ht]
      simp

lemma find?_of_id (tasks : List Task) (hnd : (taskIds tasks).Nodup)
    {t : Task} (ht : t ∈ tasks) : tasks.find? (fun u => u.id == t.id) = some t := by
  induction tasks with
  | nil => simp at ht
  | cons u rest iht =>
    have hnd' : (∀ x ∈ rest, ¬ x.id = u.id) ∧ (List.map Task.id rest).Nodup := by
      simpa [taskIds] using hnd
    have hnd1 : u.id ∉ taskIds rest := by
      intro h
      obtain ⟨x, hx, hxid⟩ := List.mem_map.mp h
      exact hnd'.1 x hx hxid
    have hnd2 : (taskIds rest).Nodup := hnd'.2
    rcases List.mem_cons.mp ht with rfl | htr
    · rw [List.find?_cons_of_pos]
      simp
    · have hne : u.id ≠ t.id := by
        intro h
        exact hnd1 (h ▸ List.mem_map_of_mem Task.id htr)
      rw [List.find?_cons_of_neg]
      · exact iht hnd2 htr
      · simp [hne]

/-- Each element's dependencies lie among the ids of strictly earlier
elements (`prior` collects the ids before the list's head). -/
def TopoSorted : List Task → List String → Prop
  | [], _ => True
  | t :: rest, prior => (∀ d ∈ t.deps, d ∈ prior) ∧ TopoSorted rest (prior ++ [t.id])

lemma topoSorted_append :
    ∀ (l : List Task) (pre : List String) (t : Task),
      TopoSorted l pre → (∀ d ∈ t.deps, d ∈ pre ++ l.map Task.id) →
      TopoSorted (l ++ [t]) pre := by
  intro l
  induction l with
  | nil =>
    intro pre t _ h
    exact ⟨by simpa using h, trivial⟩
  | cons u rest ihl =>
    intro pre t hts hdep
    obtain ⟨h1, h2⟩ := hts
    refine ⟨h1, ihl (pre ++ [u.id]) t h2 ?_⟩
    intro d hd
    have := hdep d hd
    simp [List.mem_append] at this ⊢
    tauto

lemma topoSorted_deps_mem :
    ∀ (l : List Task) (pre : List String), TopoSorted l pre →
      ∀ t ∈ l, ∀ d ∈ t.deps, d ∈ pre ++ l.map Task.id := by
  intro l
  induction l with
  | nil => intro pre _ t ht; simp at ht
  | cons u rest ihl =>
    intro pre hts t ht d hd
    obtain ⟨h1, h2⟩ := hts
    rcases List.mem_cons.mp ht with rfl | ht
    · exact List.mem_append.mpr (Or.inl (h1 d hd))
    · have := ihl (pre ++ [u.id]) h2 t ht d hd
      simp [List.mem_append] at this ⊢
      tauto

lemma topoSorted_indexOf :
    ∀ (l : List Task) (pre : List String), TopoSorted l pre →
      (pre ++ l.map Task.id).Nodup →
      ∀ t ∈ l, ∀ d ∈ t.deps,
        (pre ++ l.map Task.id).indexOf d < (pre ++ l.map Task.id).indexOf t.id := by
  intro l
  induction l with
  | nil => intro pre _ _ t ht; simp at ht
  | cons u rest ihl =>
    intro pre hts hnodup t ht d hd
    obtain ⟨h1, h2⟩ := hts
    have hassoc : pre ++ (u :: rest).map Task.id = (pre ++ [u.id]) ++ rest.map Task.id := by
      simp
    rcases List.mem_cons.mp ht with rfl | ht
    · have hdp : d ∈ pre := h1 d hd
      have hxid : t.id ∉ pre := by
        rw [hassoc] at hnodup
        rcases List.nodup_append.mp hnodup with ⟨hp1, _, _⟩
        rcases List.nodup_append.mp hp1 with ⟨_, _, hdisj⟩
        intro h
        exact hdisj h (by simp)
      have hd1 : ((pre ++ [t.id]) ++ rest.map Task.id).indexOf d = pre.indexOf d := by
        rw [List.indexOf_append_of_mem (List.mem_append.mpr (Or.inl hdp)),
            List.indexOf_append_of_mem hdp]
      have hd2 : ((pre ++ [t.id]) ++ rest.map Task.id).indexOf t.id = pre.length := by
        rw [List.indexOf_append_of_mem (List.mem_append.mpr (Or.inr (by simp))),
            List.indexOf_append_of_not_mem hxid]
        simp
      rw [hassoc, hd1, hd2]
      exact List.indexOf_lt_length.mpr hdp
    · have := ihl (pre ++ [u.id]) h2 (by rw [← hassoc]; exact hnodup) t ht d hd
      rw [hassoc]
      exact this

/-- Unfolding a pop of the Kahn queue when the popped id resolves. -/
lemma kahnLoop_cons_found (tasks : List Task) (f : Nat) (current : String)
    (rest : List String) (inDeg : String → Int) (acc : List Task) (tcur : Task)
    (hfind : tasks.find? (fun u => u.id == current) = some tcur) :
    kahnLoop tasks (f+1) (current :: rest) inDeg acc =
      kahnLoop tasks f (rest ++ (decrementSuccs inDeg (successors tasks current)).2)
        (decrementSuccs inDeg (successors tasks current)).1 (acc ++ [tcur]) := by
  simp [kahnLoop, hfind]

/-- Keeping only the not-yet-popped dependency occurrences: popping one more
id `c` removes exactly the occurrences of `c`. -/
lemma filter_snoc_count (l A : List String) (c : String) (hc : c ∉ A) :
    ((l.filter (fun d => !((A ++ [c]).contains d))).length : Int) =
      ((l.filter (fun d => !(A.contains d))).length : Int) - (l.count c : Int) := by
  induction l with
  | nil => simp
  | cons a restl ihl =>
    rw [List.filter_cons, List.filter_cons, List.count_cons]
    by_cases hac : a = c
    · subst hac
      have h1 : (!((A ++ [a]).contains a)) = false := by
        simp [List.contains, List.elem_iff]
      have h2 : (!(A.contains a)) = true := by
        simpa [List.contains, List.elem_iff] using hc
      have h3 : (a == a) = true := by simp
      rw [h1, h2, h3]
      simp only [Bool.false_eq_true, if_false, if_true, List.length_cons]
      push_cast
      omega
    · have h3 : (a == c) = false := by simp [hac]
      have hsame : (!((A ++ [c]).contains a)) = (!(A.contains a)) := by
        simp [List.contains, List.elem_iff, hac]
      rw [h3, hsame]
      by_cases hAa : (!(A.contains a)) = true
      · rw [hAa]
        simp only [if_true, List.length_cons]
        push_cast
        omega
      · rw [Bool.not_eq_true] at hAa
        rw [hAa]
        simp only [Bool.false_eq_true, if_false]
        push_cast
        omega

/-- Master invariant of the Kahn loop: popped tasks are stored tasks, each
popped at most once, and in an order where every dependency is popped
strictly earlier. -/
lemma kahnLoop_spec (tasks : List Task) (hnd : (taskIds tasks).Nodup) :
    ∀ (fuel : Nat) (queue : List String) (inDeg : String → Int) (acc : List Task),
      (∀ x ∈ queue, x ∈ taskIds tasks) →
      (∀ t ∈ acc, t ∈ tasks) →
      (acc.map Task.id ++ queue).Nodup →
      (∀ t ∈ tasks, inDeg t.id =
        ((t.deps.filter (fun d => !((acc.map Task.id).contains d))).length : Int)) →
      (∀ x ∈ queue, ∀ t ∈ tasks, t.id = x → ∀ d ∈ t.deps, d ∈ acc.map Task.id) →
      TopoSorted acc [] →
      (∀ t ∈ kahnLoop tasks fuel queue inDeg acc, t ∈ tasks) ∧
      ((kahnLoop tasks fuel queue inDeg acc).map Task.id).Nodup ∧
      TopoSorted (kahnLoop tasks fuel queue inDeg acc) [] := by
  intro fuel
  induction fuel with
  | zero =>
    intro queue inDeg acc hq hacc hnodup hdeg hqdep hts
    exact ⟨hacc, (List.nodup_append.mp hnodup).1, hts⟩
  | succ f ih =>
    intro queue inDeg acc hq hacc hnodup hdeg hqdep hts
    match queue with
    | [] => exact ⟨hacc, (List.nodup_append.mp hnodup).1, hts⟩
    | current :: rest =>
      have hcur : current ∈ taskIds tasks := hq current (by simp)
      obtain ⟨tcur, htcur, htcurid⟩ : ∃ t ∈ tasks, t.id = current := by
        obtain ⟨t, ht, hid⟩ := List.mem_map.mp hcur
        exact ⟨t, ht, hid⟩
      have hfind : tasks.find? (fun u => u.id == current) = some tcur := by
        have := find?_of_id tasks hnd htcur
        simp only [htcurid] at this
        exact this
      rw [kahnLoop_cons_found tasks f current rest inDeg acc tcur hfind]
      obtain ⟨hAnd, hqnd, hdisjAq⟩ := List.nodup_append.mp hnodup
      have hcurA : current ∉ acc.map Task.id := fun h => hdisjAq h (by simp)
      have hcurrest : current ∉ rest := (List.nodup_cons.mp hqnd).1
      -- the popped id had all dependencies popped, so in-degree zero
      have hdepcur : ∀ d ∈ tcur.deps, d ∈ acc.map Task.id :=
        hqdep current (by simp) tcur htcur htcurid
      have hfilnil : ∀ (t : Task), (∀ d ∈ t.deps, d ∈ acc.map Task.id) →
          t.deps.filter (fun d => !((acc.map Task.id).contains d)) = [] := by
        intro t h
        rw [List.filter_eq_nil_iff]
        intro d hd
        simpa [List.contains, List.elem_iff] using h d hd
      have hdeg0 : ∀ (t : Task), t ∈ tasks → (∀ d ∈ t.deps, d ∈ acc.map Task.id) →
          inDeg t.id = 0 := by
        intro t ht h
        rw [hdeg t ht, hfilnil t h]
        simp
      -- facts about the decrement pass
      have hfst : ∀ s, (decrementSuccs inDeg (successors tasks current)).1 s =
          inDeg s - ((successors tasks current).count s : Int) :=
        fun s => foldl_kahnStep_fst (successors tasks current) inDeg [] s
      have hmem2 : ∀ x, x ∈ (decrementSuccs inDeg (successors tasks current)).2 ↔
          (1 ≤ inDeg x ∧ inDeg x ≤ ((successors tasks current).count x : Int)) := by
        intro x
        rw [decrementSuccs, foldl_kahnStep_mem]
        simp
      have hnew_nodup : (decrementSuccs inDeg (successors tasks current)).2.Nodup :=
        foldl_kahnStep_nodup (successors tasks current) inDeg [] List.nodup_nil
          (by intro n h; simp at h)
      have hnewsub : ∀ x ∈ (decrementSuccs inDeg (successors tasks current)).2,
          x ∈ taskIds tasks := by
        intro x hx
        obtain ⟨h1, h2⟩ := (hmem2 x).mp hx
        have : 0 < (successors tasks current).count x := by
          by_contra h
          push_neg at h
          have h0 : (successors tasks current).count x = 0 := by omega
          rw [h0] at h2
          push_cast at h2
          omega
        exact successors_subset tasks current x (List.count_pos_iff.mp this)
      have hnew_fresh : ∀ x ∈ (decrementSuccs inDeg (successors tasks current)).2,
          x ∉ acc.map Task.id ∧ x ≠ current ∧ x ∉ rest := by
        intro x hx
        obtain ⟨h1, _⟩ := (hmem2 x).mp hx
        obtain ⟨tx, htx, htxid⟩ : ∃ t ∈ tasks, t.id = x := by
          obtain ⟨t, ht, hid⟩ := List.mem_map.mp (hnewsub x hx)
          exact ⟨t, ht, hid⟩
        refine ⟨?_, ?_, ?_⟩
        · intro hxA
          obtain ⟨u, hu, huid⟩ := List.mem_map.mp hxA
          have hdepsu : ∀ d ∈ u.deps, d ∈ acc.map Task.id := by
            intro d hd
            have := topoSorted_deps_mem acc [] hts u hu d hd
            simpa using this
          have := hdeg0 u (hacc u hu) hdepsu
          rw [huid] at this
          omega
        · intro hxc
          subst hxc
          have := hdeg0 tcur htcur hdepcur
          rw [htcurid] at this
          omega
        · intro hxr
          have := hdeg0 tx htx (hqdep x (by simp [hxr]) tx htx htxid)
          rw [htxid] at this
          omega
      -- invariants for the recursive call
      have hA' : (acc ++ [tcur]).map Task.id = acc.map Task.id ++ [current] := by
        simp [htcurid]
      have hq' : ∀ x ∈ rest ++ (decrementSuccs inDeg (successors tasks current)).2,
          x ∈ taskIds tasks := by
        intro x hx
        rcases List.mem_append.mp hx with h | h
        · exact hq x (by simp [h])
        · exact hnewsub x h
      have hacc' : ∀ t ∈ acc ++ [tcur], t ∈ tasks := by
        intro t ht
        rcases List.mem_append.mp ht with h | h
        · exact hacc t h
        · simp at h; subst h; exact htcur
      have hnodup' : ((acc ++ [tcur]).map Task.id ++
          (rest ++ (decrementSuccs inDeg (successors tasks current)).2)).Nodup := by
        rw [hA']
        have hbase : ((acc.map Task.id ++ [current]) ++ rest).Nodup := by
          rw [← List.append_cons]
          exact hnodup
        rw [← List.append_assoc]
        refine List.nodup_append.mpr ⟨hbase, hnew_nodup, ?_⟩
        intro y hy hy2
        obtain ⟨hyA, hyc, hyr⟩ := hnew_fresh y hy2
        rcases List.mem_append.mp hy with h | h
        · rcases List.mem_append.mp h with h | h
          · exact hyA h
          · simp at h; exact hyc h
        · exact hyr h
      have hdeg' : ∀ t ∈ tasks,
          (decrementSuccs inDeg (successors tasks current)).1 t.id =
          (((t.deps.filter (fun d => !(((acc ++ [tcur]).map Task.id).contains d))).length : Int)) := by
        intro t ht
        rw [hfst, hdeg t ht, hA', count_successors tasks hnd current t ht,
          filter_snoc_count t.deps (acc.map Task.id) current hcurA]
      have hqdep' : ∀ x ∈ rest ++ (decrementSuccs inDeg (successors tasks current)).2,
          ∀ t ∈ tasks, t.id = x → ∀ d ∈ t.deps, d ∈ (acc ++ [tcur]).map Task.id := by
        intro x hx t ht htid d hd
        rw [hA']
        rcases List.mem_append.mp hx with h | h
        · exact List.mem_append.mpr (Or.inl (hqdep x (by simp [h]) t ht htid d hd))
        · obtain ⟨h1, h2⟩ := (hmem2 x).mp h
          have hle : (decrementSuccs inDeg (successors tasks current)).1 t.id ≤ 0 := by
            rw [hfst, htid]
            omega
          have hge := hdeg' t ht
          rw [hA'] at hge
          rw [hge] at hle
          have hlen : (t.deps.filter
              (fun d => !((acc.map Task.id ++ [current]).contains d))).length = 0 := by
            omega
          have hnil := List.length_eq_zero.mp hlen
          rw [List.filter_eq_nil_iff] at hnil
          have h2 := hnil d hd
          rcases Bool.eq_false_or_eq_true
            ((acc.map Task.id ++ [current]).contains d) with hb | hb
          · simpa [List.contains, List.elem_iff] using hb
          · refine absurd ?_ h2
            show (!((acc.map Task.id ++ [current]).contains d)) = true
            rw [hb]
            rfl
      have hts' : TopoSorted (acc ++ [tcur]) [] := by
        refine topoSorted_append acc [] tcur hts ?_
        intro d hd
        simpa using hdepcur d hd
      exact ih (rest ++ (decrementSuccs inDeg (successors tasks current)).2)
        (decrementSuccs inDeg (successors tasks current)).1 (acc ++ [tcur])
        hq' hacc' hnodup' hdeg' hqdep' hts'

/-- The Kahn result is a duplicate-free, topologically sorted selection of
stored tasks. -/
lemma kahnResult_spec (tasks : List Task) (hnd : (taskIds tasks).Nodup) :
    (∀ t ∈ kahnResult tasks, t ∈ tasks) ∧
    ((kahnResult tasks).map Task.id).Nodup ∧
    TopoSorted (kahnResult tasks) [] := by
  apply kahnLoop_spec tasks hnd
  · intro x hx
    obtain ⟨t, ht, rfl⟩ := List.mem_map.mp hx
    exact List.mem_map_of_mem Task.id (List.mem_of_mem_filter ht)
  · intro t ht
    simp at ht
  · simp only [List.map_nil, List.nil_append]
    exact ((List.filter_sublist tasks).map Task.id).nodup hnd
  · intro t ht
    show (match tasks.find? (fun u => u.id == t.id) with
      | some u => (u.deps.length : Int)
      | none => 0) = _
    rw [find?_of_id tasks hnd ht]
    simp
  · intro x hx t ht hid d hd
    obtain ⟨u, hu, huid⟩ := List.mem_map.mp hx
    have hut : u = t := id_inj hnd (List.mem_of_mem_filter hu) ht (by rw [huid, hid])
    subst hut
    have hemp : u.deps.isEmpty = true := by
      have := (List.mem_filter.mp hu).2
      simpa using this
    rw [List.isEmpty_iff.mp hemp] at hd
    simp at hd
  · trivial

/-- A successful `GetExecutionOrder` returns a permutation of the whole task
set, topologically sorted. -/
lemma getExecutionOrder_ok_perm (tasks : List Task) (hnd : (taskIds tasks).Nodup)
    {res : List Task} (hok : GetExecutionOrder tasks = .ok res) :
    res.Perm tasks ∧ TopoSorted res [] ∧ (res.map Task.id).Nodup := by
  obtain ⟨hsub, hndres, hts⟩ := kahnResult_spec tasks hnd
  unfold GetExecutionOrder at hok
  split at hok
  case isTrue hlen =>
    have hres : kahnResult tasks = res := by
      injection hok
    subst hres
    refine ⟨?_, hts, hndres⟩
    have hresnd : (kahnResult tasks).Nodup := hndres.of_map
    exact (List.subperm_of_subset hresnd hsub).perm_of_length_le (le_of_eq hlen.symm)
  case isFalse =>
    exact absurd hok (by simp)

/-- A successful Kahn sort certifies the dependency graph acyclic. -/
lemma acyclic_of_executionOrder_ok (tasks : List Task) (hnd : (taskIds tasks).Nodup)
    {res : List Task} (hok : GetExecutionOrder tasks = .ok res) : Acyclic tasks := by
  obtain ⟨hperm, hts, hndres⟩ := getExecutionOrder_ok_perm tasks hnd hok
  apply acyclic_of_rank tasks (fun s => (res.map Task.id).indexOf s)
  intro t ht d hd
  have htres : t ∈ res := hperm.mem_iff.mpr ht
  have := topoSorted_indexOf res [] hts (by simpa using hndres) t htres d hd
  simpa using this

/-- Claim C2 (amended): on a registry whose dependency graph contains a
cycle, `TaskManager.GetExecutionOrder` reports the cycle error, and whenever
it succeeds its result contains every task (a permutation of the set) — it
never silently drops tasks.  `ParallelExecutor.topologicalSort`, in
contrast, has no error channel: on a cyclic set it returns normally with the
cyclic tasks omitted (see the counterexample), which is harmless in
`ExecuteTasks` only because `GetExecutionOrder` runs first and aborts. -/
theorem getExecutionOrder_cycle_error (tasks : List Task)
    (hnd : (taskIds tasks).Nodup) :
    ((∃ a, Relation.TransGen (dependsOn tasks) a a) →
      GetExecutionOrder tasks = .error "dependency cycle detected") ∧
    (∀ res, GetExecutionOrder tasks = .ok res → res.Perm tasks) := by
  constructor
  · rintro ⟨a, ha⟩
    rcases hres : GetExecutionOrder tasks with e | res
    · unfold GetExecutionOrder at hres
      split at hres
      · exact absurd hres (by simp)
      · injection hres with h
        rw [← h]
    · exact absurd ha (acyclic_of_executionOrder_ok tasks hnd hres a)
  · intro res hok
    exact (getExecutionOrder_ok_perm tasks hnd hok).1

/-- Witness for the amended C2: on the concrete two-task cycle, the
hypotheses hold and `GetExecutionOrder` reports the cycle error. -/
theorem getExecutionOrder_cycle_error_witness :
    (taskIds cycTasks).Nodup ∧
    (∃ a, Relation.TransGen (dependsOn cycTasks) a a) ∧
    GetExecutionOrder cycTasks = .error "dependency cycle detected" := by
  have hnd : (taskIds cycTasks).Nodup := by decide
  have hab : dependsOn cycTasks "a" "b" :=
    ⟨{ id := "a", deps := ["b"] }, by decide, rfl, by decide⟩
  have hba : dependsOn cycTasks "b" "a" :=
    ⟨{ id := "b", deps := ["a"] }, by decide, rfl, by decide⟩
  have hcyc : ∃ a, Relation.TransGen (dependsOn cycTasks) a a :=
    ⟨"a", Relation.TransGen.head hab (Relation.TransGen.single hba)⟩
  exact ⟨hnd, hcyc, (getExecutionOrder_cycle_error cycTasks hnd).1 hcyc⟩

/-- Counterexample to C2 as stated: `ParallelExecutor.topologicalSort` has
no error return at all; on the concrete cyclic set it returns normally with
an empty batch list, silently omitting every task of the cycle. -/
theorem topologicalSort_cycle_counterexample :
    topologicalSort cycTasks = [] ∧ cycTasks ≠ [] ∧
    ¬ (∀ t ∈ cycTasks, ∃ k, t ∈ (topologicalSort cycTasks).getD k []) := by
  refine ⟨by decide, by decide, ?_⟩
  intro h
  obtain ⟨k, hk⟩ := h { id := "a", deps := ["b"] } (by decide)
  rw [show topologicalSort cycTasks = [] from by decide] at hk
  simp at hk

/-! ## `ClaudeExecutor`: rate-limit classification and the retry loop -/

/-- `strings.Contains`: `pat` occurs as a substring of `s`. -/
def containsSubstr (s pat : String) : Bool :=
  (List.range (s.toList.length + 1)).any
    (fun i => pat.toList.isPrefixOf (s.toList.drop i))

/-- `IsRateLimitError`: case-insensitive match of the known patterns. -/
def IsRateLimitError (output : String) : Bool :=
  [ "rate limit", "too many requests", "please wait", "retry after",
    "api rate limit", "quota exceeded", "throttled"
  ].any (fun pat => containsSubstr output.toLower pat)

/-- `ParseRetryAfter` (seconds): pattern-match a few fixed durations,
defaulting to 60 seconds. -/
def ParseRetryAfter (output : String) : Nat :=
  if containsSubstr output.toLower "60 seconds"
      || containsSubstr output.toLower "1 minute" then 60
  else if containsSubstr output.toLower "5 minutes" then 300
  else if containsSubstr output.toLower "10 minutes" then 600
  else if containsSubstr output.toLower "30 seconds" then 30
  else 60

/-- `core.ClaudeResponse` (the `Duration` field, real time, is omitted). -/
structure ClaudeResponse where
  output : String
  error : Option String := none
  exitCode : Int := 0
  rateLimited : Bool := false
deriving DecidableEq, Repr

/-- Observable wait/call events of one `executeWithRetry` run. -/
inductive RetryEvent where
  | attemptCall (i : Nat)
  | cooldownWait (secs : Nat)
  | backoffWait (secs : Nat)
deriving DecidableEq, Repr

/-- Result of `executeWithRetry`: Go returns `(response, err)` — success is
`(resp, nil)`, exhaustion `(lastResponse, non-nil err)`, cancellation
`(nil, ctx.Err())`.  The Go exhaustion message wraps the last error; the
wrapping text is modelled by the constant `max retries exceeded`. -/
abbrev RetryResult := Except (Option ClaudeResponse × String) ClaudeResponse

/-- The `for attempt := 0; attempt < maxRetries; attempt++` loop of
`executeWithRetry`.  `oracle attempt` is the outcome of the `executeOnce`
call of that attempt (`.ok resp` for `(resp, nil)`, `.error e` for
`(nil, err)`).  `ctxCancelled` models a context that is already cancelled:
every `select` on `ctx.Done()` returns immediately with `ctx.Err()`.
A rate-limited response waits the parsed cooldown and skips the backoff
(`continue`); a generic error backs off `2^attempt` seconds only while
attempts remain.  The recursion is on `remaining = maxRetries - attempt`. -/
def retryLoop (oracle : Nat → Except String ClaudeResponse) (ctxCancelled : Bool)
    (maxRetries : Nat) :
    Nat → Nat → Option ClaudeResponse × Option String → RetryResult × List RetryEvent
  | 0, _, last => (.error (last.1, "max retries exceeded"), [])
  | remaining+1, attempt, _ =>
    match oracle attempt with
    | .ok resp =>
      if resp.rateLimited = false then (.ok resp, [.attemptCall attempt])
      else
        if ctxCancelled then (.error (none, "context canceled"), [.attemptCall attempt])
        else
          let r := retryLoop oracle ctxCancelled maxRetries remaining (attempt+1)
            (some resp, none)
          (r.1, .attemptCall attempt :: .cooldownWait (ParseRetryAfter resp.output) :: r.2)
    | .error e =>
      if attempt + 1 < maxRetries then
        if ctxCancelled then (.error (none, "context canceled"), [.attemptCall attempt])
        else
          let r := retryLoop oracle ctxCancelled maxRetries remaining (attempt+1)
            (none, some e)
          (r.1, .attemptCall attempt :: .backoffWait (2^attempt) :: r.2)
      else
        let r := retryLoop oracle ctxCancelled maxRetries remaining (attempt+1)
          (none, some e)
        (r.1, .attemptCall attempt :: r.2)

/-- `ClaudeExecutor.executeWithRetry` (also the body of `Execute`). -/
def executeWithRetry (oracle : Nat → Except String ClaudeResponse)
    (ctxCancelled : Bool) (maxRetries : Nat) : RetryResult × List RetryEvent :=
  retryLoop oracle ctxCancelled maxRetries maxRetries 0 (none, none)

/-- Number of `executeOnce` calls in an event trace. -/
def countCalls (events : List RetryEvent) : Nat :=
  (events.filter (fun e => match e with | .attemptCall _ => true | _ => false)).length

/-! ## `TaskManager` registry operations -/

/-- Update the store at a key (`tm.tasks[taskID]` mutation). -/
def updateTask (reg : List Task) (taskID : String) (f : Task → Task) : List Task :=
  reg.map (fun t => if t.id == taskID then f t else t)

/-- The `task, exists := tm.tasks[taskID]` lookup check. -/
def existsTask (reg : List Task) (taskID : String) : Bool :=
  reg.any (fun t => t.id == taskID)

/-- `TaskManager.GetTask`. -/
def GetTask (reg : List Task) (taskID : String) : Option Task :=
  reg.find? (fun t => t.id == taskID)

/-- `TaskManager.UpdateTaskStatus`: sets the requested status
unconditionally (there is no transition guard in the Go code) and stamps
`CompletedAt` when the new status is Completed.  Returns the new store and
the Go error value; the not-found failure leaves the store unchanged. -/
def UpdateTaskStatus (reg : List Task) (taskID : String) (status : TaskStatus)
    (now : Nat) : List Task × Option String :=
  if existsTask reg taskID then
    (updateTask reg taskID (fun t =>
      { t with
        status := status
        completedAt := if status == TaskStatus.completed then some now
                       else t.completedAt }), none)
  else (reg, some ("task " ++ taskID ++ " not found"))

/-- `TaskManager.SetTaskResult`. -/
def SetTaskResult (reg : List Task) (taskID result : String) :
    List Task × Option String :=
  if existsTask reg taskID then
    (updateTask reg taskID (fun t => { t with result := result }), none)
  else (reg, some ("task " ++ taskID ++ " not found"))

/-- `TaskManager.SetTaskError`: records the cause and forces Failed. -/
def SetTaskError (reg : List Task) (taskID : String) (e : String) :
    List Task × Option String :=
  if existsTask reg taskID then
    (updateTask reg taskID (fun t =>
      { t with
        error := some e
        status := TaskStatus.failed }), none)
  else (reg, some ("task " ++ taskID ++ " not found"))

/-- `ParallelExecutor.executeTask`, linearised: InProgress, run the retry
loop, then either record the failure (`SetTaskError`, whose own error the Go
code ignores) or record the output and Completed. -/
def executeTask (oracle2 : String → Nat → Except String ClaudeResponse)
    (ctxCancelled : Bool) (maxRetries : Nat) (now : Nat)
    (reg : List Task) (task : Task) : List Task × Option String :=
  let step1 := UpdateTaskStatus reg task.id TaskStatus.inProgress now
  match step1.2 with
  | some e => (step1.1, some ("failed to update task status: " ++ e))
  | none =>
    match (executeWithRetry (oracle2 task.id) ctxCancelled maxRetries).1 with
    | .error p => ((SetTaskError step1.1 task.id p.2).1, some p.2)
    | .ok resp =>
      let step2 := SetTaskResult step1.1 task.id resp.output
      match step2.2 with
      | some e => (step2.1, some ("failed to set task result: " ++ e))
      | none =>
        let step3 := UpdateTaskStatus step2.1 task.id TaskStatus.completed now
        match step3.2 with
        | some e => (step3.1, some ("failed to update task status: " ++ e))
        | none => (step3.1, none)

lemma updateTask_mem {reg : List Task} {taskID : String} {f : Task → Task}
    {u : Task} (hu : u ∈ updateTask reg taskID f) :
    ∃ v ∈ reg, (v.id = taskID ∧ u = f v) ∨ (v.id ≠ taskID ∧ u = v) := by
  obtain ⟨v, hv, hvu⟩ := List.mem_map.mp hu
  refine ⟨v, hv, ?_⟩
  by_cases h : v.id = taskID
  · exact Or.inl ⟨h, by rw [← hvu, if_pos (by simp [h])]⟩
  · exact Or.inr ⟨h, by rw [← hvu, if_neg (by simp [h])]⟩

lemma exists_mem_updateTask {reg : List Task} {taskID idq : String} {f : Task → Task}
    (hf : ∀ t, (f t).id = t.id) (h : ∃ t ∈ reg, t.id = idq) :
    ∃ t ∈ updateTask reg taskID f, t.id = idq := by
  obtain ⟨t, ht, htid⟩ := h
  refine ⟨if (t.id == taskID) = true then f t else t, List.mem_map_of_mem _ ht, ?_⟩
  by_cases hc : (t.id == taskID) = true
  · rw [if_pos hc, hf, htid]
  · rw [if_neg hc, htid]

lemma existsTask_true {reg : List Task} {taskID : String}
    (h : ∃ t ∈ reg, t.id = taskID) : existsTask reg taskID = true := by
  obtain ⟨t, ht, htid⟩ := h
  exact List.any_eq_true.mpr ⟨t, ht, by simp [htid]⟩

lemma updateTaskStatus_found {reg : List Task} {taskID : String}
    (h : ∃ t ∈ reg, t.id = taskID) (status : TaskStatus) (now : Nat) :
    UpdateTaskStatus reg taskID status now =
      (updateTask reg taskID (fun t =>
        { t with
          status := status
          completedAt := if status == TaskStatus.completed then some now
                         else t.completedAt }), none) := by
  unfold UpdateTaskStatus
  rw [if_pos (existsTask_true h)]

lemma setTaskResult_found {reg : List Task} {taskID : String}
    (h : ∃ t ∈ reg, t.id = taskID) (result : String) :
    SetTaskResult reg taskID result =
      (updateTask reg taskID (fun t => { t with result := result }), none) := by
  unfold SetTaskResult
  rw [if_pos (existsTask_true h)]

lemma setTaskError_found {reg : List Task} {taskID : String}
    (h : ∃ t ∈ reg, t.id = taskID) (e : String) :
    SetTaskError reg taskID e =
      (updateTask reg taskID (fun t =>
        { t with
          error := some e
          status := TaskStatus.failed }), none) := by
  unfold SetTaskError
  rw [if_pos (existsTask_true h)]

lemma countCalls_nil : countCalls [] = 0 := rfl

lemma countCalls_call (i : Nat) (r : List RetryEvent) :
    countCalls (RetryEvent.attemptCall i :: r) = countCalls r + 1 := by
  simp [countCalls, List.filter_cons]

lemma countCalls_cooldown (w : Nat) (r : List RetryEvent) :
    countCalls (RetryEvent.cooldownWait w :: r) = countCalls r := by
  simp [countCalls, List.filter_cons]

lemma countCalls_backoff (w : Nat) (r : List RetryEvent) :
    countCalls (RetryEvent.backoffWait w :: r) = countCalls r := by
  simp [countCalls, List.filter_cons]

lemma retryLoop_step_rl {oracle : Nat → Except String ClaudeResponse}
    {mr rem attempt : Nat} {last : Option ClaudeResponse × Option String}
    {resp : ClaudeResponse}
    (hora : oracle attempt = .ok resp) (hrl : resp.rateLimited = true) :
    retryLoop oracle false mr (rem+1) attempt last =
      ((retryLoop oracle false mr rem (attempt+1) (some resp, none)).1,
       RetryEvent.attemptCall attempt ::
         RetryEvent.cooldownWait (ParseRetryAfter resp.output) ::
         (retryLoop oracle false mr rem (attempt+1) (some resp, none)).2) := by
  simp [retryLoop, hora, hrl]

lemma retryLoop_step_ok {oracle : Nat → Except String ClaudeResponse}
    {ctx : Bool} {mr rem attempt : Nat} {last : Option ClaudeResponse × Option String}
    {resp : ClaudeResponse}
    (hora : oracle attempt = .ok resp) (hrl : resp.rateLimited = false) :
    retryLoop oracle ctx mr (rem+1) attempt last =
      (.ok resp, [RetryEvent.attemptCall attempt]) := by
  simp [retryLoop, hora, hrl]

lemma retryLoop_step_err_backoff {oracle : Nat → Except String ClaudeResponse}
    {mr rem attempt : Nat} {last : Option ClaudeResponse × Option String} {e : String}
    (hora : oracle attempt = .error e) (hlt : attempt + 1 < mr) :
    retryLoop oracle false mr (rem+1) attempt last =
      ((retryLoop oracle false mr rem (attempt+1) (none, some e)).1,
       RetryEvent.attemptCall attempt :: RetryEvent.backoffWait (2^attempt) ::
         (retryLoop oracle false mr rem (attempt+1) (none, some e)).2) := by
  simp [retryLoop, hora, hlt]

lemma retryLoop_step_err_last {oracle : Nat → Except String ClaudeResponse}
    {ctx : Bool} {mr rem attempt : Nat} {last : Option ClaudeResponse × Option String}
    {e : String}
    (hora : oracle attempt = .error e) (hge : ¬ (attempt + 1 < mr)) :
    retryLoop oracle ctx mr (rem+1) attempt last =
      ((retryLoop oracle ctx mr rem (attempt+1) (none, some e)).1,
       RetryEvent.attemptCall attempt ::
         (retryLoop oracle ctx mr rem (attempt+1) (none, some e)).2) := by
  simp [retryLoop, hora, hge]

/-- Exhaustion under an all-rate-limited oracle: the loop returns the last
response with the exhaustion error after exactly `remaining` calls. -/
lemma retryLoop_rateLimited (oracle : Nat → Except String ClaudeResponse)
    (maxRetries : Nat) (resp : Nat → ClaudeResponse)
    (hrl : ∀ i < maxRetries, oracle i = .ok (resp i) ∧ (resp i).rateLimited = true) :
    ∀ remaining attempt last, 1 ≤ remaining → attempt + remaining = maxRetries →
      (retryLoop oracle false maxRetries remaining attempt last).1 =
        .error (some (resp (maxRetries - 1)), "max retries exceeded") ∧
      countCalls (retryLoop oracle false maxRetries remaining attempt last).2 =
        remaining := by
  intro remaining
  induction remaining with
  | zero => intro attempt last h; omega
  | succ rem ih =>
    intro attempt last _ hsum
    have hat : attempt < maxRetries := by omega
    obtain ⟨hora, hrlt⟩ := hrl attempt hat
    rw [retryLoop_step_rl hora hrlt]
    match rem, hsum with
    | 0, hsum =>
      have hlast : attempt = maxRetries - 1 := by omega
      subst hlast
      simp [retryLoop, countCalls_call, countCalls_cooldown, countCalls_nil]
    | rem'+1, hsum =>
      obtain ⟨ih1, ih2⟩ := ih (attempt+1) (some (resp attempt), none) (by omega) (by omega)
      exact ⟨ih1, by rw [countCalls_call, countCalls_cooldown, ih2]⟩

/-- Claim C3: every rate-limit retry consumes one of the `maxRetries`
attempts, the same budget as a generic failure: with every attempt
rate-limited, exactly `maxRetries` calls to `executeOnce` happen,
`executeWithRetry` returns the last response paired with a non-nil error,
and `executeTask` then records the task Failed with that error cause. -/
theorem rateLimited_exhausts_budget
    (oracle2 : String → Nat → Except String ClaudeResponse)
    (maxRetries : Nat) (hmr : 1 ≤ maxRetries)
    (reg : List Task) (task : Task) (ht : task ∈ reg)
    (resp : Nat → ClaudeResponse) (now : Nat)
    (hrl : ∀ i < maxRetries,
      oracle2 task.id i = .ok (resp i) ∧ (resp i).rateLimited = true) :
    (executeWithRetry (oracle2 task.id) false maxRetries).1 =
      .error (some (resp (maxRetries - 1)), "max retries exceeded") ∧
    countCalls (executeWithRetry (oracle2 task.id) false maxRetries).2 = maxRetries ∧
    (executeTask oracle2 false maxRetries now reg task).2 =
      some "max retries exceeded" ∧
    ∀ u ∈ (executeTask oracle2 false maxRetries now reg task).1, u.id = task.id →
      u.status = TaskStatus.failed ∧ u.error = some "max retries exceeded" := by
  obtain ⟨h1, h2⟩ := retryLoop_rateLimited (oracle2 task.id) maxRetries resp hrl
    maxRetries 0 (none, none) hmr (by omega)
  have hW1 : (executeWithRetry (oracle2 task.id) false maxRetries).1 =
      .error (some (resp (maxRetries - 1)), "max retries exceeded") := h1
  have hW2 : countCalls (executeWithRetry (oracle2 task.id) false maxRetries).2 =
      maxRetries := h2
  have hex : ∃ t ∈ reg, t.id = task.id := ⟨task, ht, rfl⟩
  have hexec : executeTask oracle2 false maxRetries now reg task =
      ((SetTaskError (updateTask reg task.id (fun t =>
          { t with
            status := TaskStatus.inProgress
            completedAt := if TaskStatus.inProgress == TaskStatus.completed
                           then some now else t.completedAt })) task.id
        "max retries exceeded").1, some "max retries exceeded") := by
    unfold executeTask
    rw [updateTaskStatus_found hex, hW1]
  have hex1 : ∃ t ∈ updateTask reg task.id (fun t =>
      { t with
        status := TaskStatus.inProgress
        completedAt := if TaskStatus.inProgress == TaskStatus.completed
                       then some now else t.completedAt }), t.id = task.id :=
    exists_mem_updateTask (fun _ => rfl) hex
  refine ⟨hW1, hW2, by rw [hexec], ?_⟩
  intro u hu huid
  rw [hexec] at hu
  rw [setTaskError_found hex1] at hu
  obtain ⟨v, _, hcase⟩ := updateTask_mem hu
  rcases hcase with ⟨_, rfl⟩ | ⟨hne, rfl⟩
  · exact ⟨rfl, rfl⟩
  · exact absurd huid hne

/-- A response carrying a rate-limit signal. -/
def rlResp : ClaudeResponse := { output := "rate limit", rateLimited := true }

/-- A single dependency-free task. -/
def rlTask : Task := { id := "t1", deps := [] }

/-- Witness for C3: three rate-limited attempts at the default budget 3 end
Failed after exactly three calls. -/
theorem rateLimited_exhausts_budget_witness :
    1 ≤ 3 ∧ rlTask ∈ [rlTask] ∧
    countCalls (executeWithRetry ((fun (_ : String) (_ : Nat) =>
      Except.ok rlResp) rlTask.id) false 3).2 = 3 ∧
    (executeTask (fun _ _ => Except.ok rlResp) false 3 0 [rlTask] rlTask).2 =
      some "max retries exceeded" ∧
    ∀ u ∈ (executeTask (fun _ _ => Except.ok rlResp) false 3 0 [rlTask] rlTask).1,
      u.id = rlTask.id →
      u.status = TaskStatus.failed ∧ u.error = some "max retries exceeded" := by
  have h := rateLimited_exhausts_budget (fun _ _ => Except.ok rlResp) 3 (by omega)
    [rlTask] rlTask (by simp) (fun _ => rlResp) 0 (fun i _ => ⟨rfl, rfl⟩)
  exact ⟨by omega, by simp, h.2.1, h.2.2.1, h.2.2.2⟩

/-- Backoff schedule: attempts `attempt..i-1` failing generically and
attempt `i` succeeding yield the success response, with a `2^j`-second
backoff logged after each failed attempt `j`. -/
lemma retryLoop_backoff (oracle : Nat → Except String ClaudeResponse) (mr : Nat) :
    ∀ remaining attempt (last : Option ClaudeResponse × Option String) i
      (r : ClaudeResponse),
      attempt + remaining = mr → attempt ≤ i → i < mr →
      (∀ j, attempt ≤ j → j < i → ∃ e, oracle j = .error e) →
      oracle i = .ok r → r.rateLimited = false →
      retryLoop oracle false mr remaining attempt last =
        (.ok r,
         (List.range' attempt (i - attempt)).flatMap
           (fun j => [RetryEvent.attemptCall j, RetryEvent.backoffWait (2^j)]) ++
           [RetryEvent.attemptCall i]) := by
  intro remaining
  induction remaining with
  | zero => intro attempt last i r hsum hle hlt _ _ _; omega
  | succ rem ih =>
    intro attempt last i r hsum hle hlt hfail hok hnr
    by_cases hai : attempt = i
    · subst hai
      rw [retryLoop_step_ok hok hnr]
      simp
    · have hlt2 : attempt < i := by omega
      obtain ⟨e, he⟩ := hfail attempt (le_refl _) hlt2
      have hbk : attempt + 1 < mr := by omega
      rw [retryLoop_step_err_backoff he hbk]
      rw [ih (attempt+1) (none, some e) i r (by omega) (by omega) hlt
        (fun j hj1 hj2 => hfail j (by omega) hj2) hok hnr]
      have hrange : List.range' attempt (i - attempt) =
          attempt :: List.range' (attempt+1) (i - (attempt+1)) := by
        have hn : i - attempt = (i - (attempt+1)) + 1 := by omega
        rw [hn, List.range'_succ]
      rw [hrange]
      simp

/-- A successful retry run makes `executeTask` record the output and the
Completed status (with completion stamp). -/
lemma executeTask_ok_spec (oracle2 : String → Nat → Except String ClaudeResponse)
    (ctx : Bool) (mr now : Nat) (reg : List Task) (task : Task) (ht : task ∈ reg)
    (r : ClaudeResponse)
    (hres : (executeWithRetry (oracle2 task.id) ctx mr).1 = .ok r) :
    (executeTask oracle2 ctx mr now reg task).2 = none ∧
    ∀ u ∈ (executeTask oracle2 ctx mr now reg task).1, u.id = task.id →
      u.status = TaskStatus.completed ∧ u.result = r.output ∧
      u.completedAt = some now := by
  have hex : ∃ t ∈ reg, t.id = task.id := ⟨task, ht, rfl⟩
  have hex1 := @exists_mem_updateTask reg task.id task.id (fun t =>
    { t with
      status := TaskStatus.inProgress
      completedAt := if TaskStatus.inProgress == TaskStatus.completed
                     then some now else t.completedAt })
    (fun _ => rfl) hex
  have hex2 := @exists_mem_updateTask _ task.id task.id
    (fun t => { t with result := r.output })
    (fun _ => rfl) hex1
  have hexec : executeTask oracle2 ctx mr now reg task =
      ((UpdateTaskStatus (updateTask (updateTask reg task.id (fun t =>
          { t with
            status := TaskStatus.inProgress
            completedAt := if TaskStatus.inProgress == TaskStatus.completed
                           then some now else t.completedAt })) task.id
          (fun t => { t with result := r.output })) task.id
        TaskStatus.completed now).1, none) := by
    unfold executeTask
    rw [updateTaskStatus_found hex, hres]
    simp only []
    rw [setTaskResult_found hex1]
    simp only []
    rw [updateTaskStatus_found hex2]
  rw [hexec]
  refine ⟨rfl, ?_⟩
  intro u hu huid
  rw [updateTaskStatus_found hex2] at hu
  obtain ⟨v, hv, hcase⟩ := updateTask_mem hu
  rcases hcase with ⟨hvid, rfl⟩ | ⟨hne, rfl⟩
  · obtain ⟨w, _, hcase2⟩ := updateTask_mem hv
    rcases hcase2 with ⟨hwid, rfl⟩ | ⟨hwne, rfl⟩
    · exact ⟨rfl, rfl, rfl⟩
    · exact absurd hvid hwne
  · exact absurd huid hne

/-- Claim C8: a generic (non-rate-limit) failure with attempts remaining
waits an exponentially increasing `2^attempt` seconds before the next
attempt; when attempts `0..i-1` fail generically and attempt `i` succeeds,
the run returns the successful response after backoffs `2^0 .. 2^(i-1)` and
`executeTask` records the task Completed with that call's output. -/
theorem backoff_retry
    (oracle2 : String → Nat → Except String ClaudeResponse)
    (mr : Nat) (reg : List Task) (task : Task) (ht : task ∈ reg)
    (i : Nat) (r : ClaudeResponse) (now : Nat)
    (hlt : i < mr)
    (hfail : ∀ j < i, ∃ e, oracle2 task.id j = .error e)
    (hok : oracle2 task.id i = .ok r) (hnr : r.rateLimited = false) :
    executeWithRetry (oracle2 task.id) false mr =
      (.ok r, (List.range i).flatMap
        (fun j => [RetryEvent.attemptCall j, RetryEvent.backoffWait (2^j)]) ++
        [RetryEvent.attemptCall i]) ∧
    (executeTask oracle2 false mr now reg task).2 = none ∧
    ∀ u ∈ (executeTask oracle2 false mr now reg task).1, u.id = task.id →
      u.status = TaskStatus.completed ∧ u.result = r.output := by
  have h := retryLoop_backoff (oracle2 task.id) mr mr 0 (none, none) i r
    (by omega) (by omega) hlt (fun j _ hj => hfail j hj) hok hnr
  have hW : executeWithRetry (oracle2 task.id) false mr =
      (.ok r, (List.range i).flatMap
        (fun j => [RetryEvent.attemptCall j, RetryEvent.backoffWait (2^j)]) ++
        [RetryEvent.attemptCall i]) := by
    rw [executeWithRetry, h, List.range_eq_range']
    simp
  have hok1 : (executeWithRetry (oracle2 task.id) false mr).1 = .ok r := by
    rw [hW]
  obtain ⟨he1, he2⟩ := executeTask_ok_spec oracle2 false mr now reg task ht r hok1
  exact ⟨hW, he1, fun u hu huid => ⟨(he2 u hu huid).1, (he2 u hu huid).2.1⟩⟩

/-- The §8 scenario oracle: two generic failures, then success. -/
def twoFailOracle : String → Nat → Except String ClaudeResponse := fun _ j =>
  if j < 2 then .error "boom" else .ok { output := "done" }

/-- Witness for C8: with `maxRetries = 3`, two generic failures then a
success end Completed with the third call's output, after backoffs of
`2^0 = 1` and `2^1 = 2` seconds. -/
theorem backoff_retry_witness :
    executeWithRetry (twoFailOracle rlTask.id) false 3 =
      (.ok { output := "done" },
       [RetryEvent.attemptCall 0, RetryEvent.backoffWait 1,
        RetryEvent.attemptCall 1, RetryEvent.backoffWait 2,
        RetryEvent.attemptCall 2]) ∧
    (executeTask twoFailOracle false 3 0 [rlTask] rlTask).2 = none ∧
    ∀ u ∈ (executeTask twoFailOracle false 3 0 [rlTask] rlTask).1,
      u.id = rlTask.id → u.status = TaskStatus.completed ∧ u.result = "done" := by
  have h := backoff_retry twoFailOracle 3 [rlTask] rlTask (by simp) 2
    { output := "done" } 0 (by omega)
    (fun j hj => ⟨"boom", by simp [twoFailOracle, hj]⟩)
    (by simp [twoFailOracle]) rfl
  refine ⟨?_, h.2.1, h.2.2⟩
  rw [h.1]
  rfl

/-! ## `core.RateLimiter`

Times are `Nat` seconds.  `req.After(cutoff)` with `cutoff = now - window`
is expressed additively as `req + window > now` (equivalent over unbounded
integers, avoiding truncated subtraction). -/

/-- `core.RateLimiter` state (the mutex is a non-event in the linearised
model). -/
structure RateLimiterState where
  limited : Bool := false
  retryAfter : Nat := 0
  requests : List Nat := []
  maxRequests : Nat
  window : Nat
deriving DecidableEq, Repr

/-- `NewRateLimiter`: 10 requests per 60-second window. -/
def NewRateLimiter : RateLimiterState :=
  { maxRequests := 10, window := 60 }

/-- `RateLimiter.Wait` called at instant `now`: returns the new state, the
instant at which the call returns, and the Go error value — `nil` on every
return path.  The cooldown branch sleeps and returns without pruning or
recording.  The blocked branch sleeps until the oldest pruned timestamp
exits the window and then appends the `now` captured *before* the sleep,
without re-pruning.  (`requests[0]` is total in Go only because the blocked
branch needs `len ≥ maxRequests ≥ 1`; `headD 0` mirrors that.) -/
def RateLimiter.wait (rl : RateLimiterState) (now : Nat) :
    RateLimiterState × Nat × Option String :=
  if rl.limited = true ∧ now < rl.retryAfter then
    (rl, rl.retryAfter, none)
  else
    let pruned := rl.requests.filter (fun req => req + rl.window > now)
    if rl.maxRequests ≤ pruned.length then
      let rt := pruned.headD 0 + rl.window
      ({ rl with
         limited := false
         retryAfter := rt
         requests := pruned ++ [now] }, max now rt, none)
    else
      ({ rl with requests := pruned ++ [now] }, now, none)

/-- `RateLimiter.SetRateLimit`. -/
def RateLimiter.setRateLimit (rl : RateLimiterState) (now retryAfter : Nat) :
    RateLimiterState :=
  { rl with
    limited := true
    retryAfter := now + retryAfter }

/-- `RateLimiter.Reset`. -/
def RateLimiter.reset (rl : RateLimiterState) : RateLimiterState :=
  { rl with
    limited := false
    retryAfter := 0
    requests := [] }

/-- Fold a sequence of `Wait` calls (states only). -/
def waitCalls (rl : RateLimiterState) (times : List Nat) : RateLimiterState :=
  times.foldl (fun s t => (RateLimiter.wait s t).1) rl

/-- Counterexample to C6 as stated: eleven rapid `Wait` calls against the
default limiter (`maxRequests = 10`) leave **eleven** recorded timestamps —
the blocked eleventh call appends its pre-sleep `now` without re-pruning,
so the record exceeds `maxRequests` right after a blocked call admits. -/
theorem rateLimiter_window_counterexample :
    NewRateLimiter.maxRequests = 10 ∧
    (waitCalls NewRateLimiter (List.replicate 11 0)).requests.length = 11 := by
  constructor
  · rfl
  · decide

/-- Claim C6 (amended): timestamps older than the window are pruned before
each admission check — outside a cooldown sleep the new record is exactly
the pruned old record plus this request, and the admission decision reads
the pruned record — but the bound is `maxRequests + 1`, not `maxRequests`:
under sequential calls (each call's `now` at or after the previous call's
return) the record never exceeds `maxRequests + 1` entries, hitting
`maxRequests + 1` exactly when a blocked `Wait` records its request. -/
theorem rateLimiter_wait_spec (rl : RateLimiterState) (now tLast : Nat)
    (hmax : 1 ≤ rl.maxRequests)
    (hlen : rl.requests.length ≤ rl.maxRequests + 1)
    (hhead : rl.requests.length = rl.maxRequests + 1 →
      rl.requests.headD 0 + rl.window ≤ tLast)
    (hnow : tLast ≤ now) :
    (¬ (rl.limited = true ∧ now < rl.retryAfter) →
      ((RateLimiter.wait rl now).1).requests =
        rl.requests.filter (fun req => req + rl.window > now) ++ [now]) ∧
    ((RateLimiter.wait rl now).1).requests.length ≤ rl.maxRequests + 1 ∧
    (((RateLimiter.wait rl now).1).requests.length = rl.maxRequests + 1 →
      ((RateLimiter.wait rl now).1).requests.headD 0 + rl.window ≤
        (RateLimiter.wait rl now).2.1) ∧
    tLast ≤ (RateLimiter.wait rl now).2.1 ∧
    ((RateLimiter.wait rl now).1).maxRequests = rl.maxRequests ∧
    ((RateLimiter.wait rl now).1).window = rl.window := by
  have hpruned : (rl.requests.filter (fun req => req + rl.window > now)).length ≤
      rl.maxRequests := by
    rcases Nat.lt_or_ge rl.requests.length (rl.maxRequests + 1) with hc | hc
    · calc (rl.requests.filter (fun req => req + rl.window > now)).length
          ≤ rl.requests.length := List.length_filter_le _ _
        _ ≤ rl.maxRequests := by omega
    · have hceq : rl.requests.length = rl.maxRequests + 1 := by omega
      have hhd := hhead hceq
      match hreq : rl.requests with
      | [] =>
        rw [hreq] at hceq
        simp at hceq
      | h0 :: t =>
        rw [hreq] at hhd hceq
        simp only [List.headD_cons] at hhd
        simp only [List.length_cons] at hceq
        have hp : ¬ (h0 + rl.window > now) := by omega
        rw [List.filter_cons, if_neg (by simpa using hp)]
        calc (t.filter (fun req => req + rl.window > now)).length
            ≤ t.length := List.length_filter_le _ _
          _ ≤ rl.maxRequests := by omega
  unfold RateLimiter.wait
  by_cases hcool : rl.limited = true ∧ now < rl.retryAfter
  · rw [if_pos hcool]
    obtain ⟨hc1, hc2⟩ := hcool
    refine ⟨fun h => absurd ⟨hc1, hc2⟩ h, hlen, ?_, ?_, rfl, rfl⟩
    · intro hl
      have h1 := hhead hl
      show rl.requests.headD 0 + rl.window ≤ rl.retryAfter
      omega
    · show tLast ≤ rl.retryAfter
      omega
  · rw [if_neg hcool]
    by_cases hblock : rl.maxRequests ≤
        (rl.requests.filter (fun req => req + rl.window > now)).length
    · rw [if_pos hblock]
      have hprnonempty : rl.requests.filter (fun req => req + rl.window > now) ≠ [] := by
        intro h
        rw [h] at hblock
        simp at hblock
        omega
      refine ⟨fun _ => rfl, ?_, ?_, ?_, rfl, rfl⟩
      · show ((rl.requests.filter (fun req => req + rl.window > now)) ++ [now]).length ≤
          rl.maxRequests + 1
        simp only [List.length_append, List.length_singleton]
        omega
      · intro _
        show ((rl.requests.filter (fun req => req + rl.window > now)) ++ [now]).headD 0 +
            rl.window ≤
          max now ((rl.requests.filter (fun req => req + rl.window > now)).headD 0 +
            rl.window)
        have hh : ((rl.requests.filter (fun req => req + rl.window > now)) ++
            [now]).headD 0 =
            (rl.requests.filter (fun req => req + rl.window > now)).headD 0 := by
          match hfil : rl.requests.filter (fun req => req + rl.window > now) with
          | [] => exact absurd hfil hprnonempty
          | a :: l => simp
        rw [hh]
        exact le_max_right _ _
      · show tLast ≤ max now ((rl.requests.filter
          (fun req => req + rl.window > now)).headD 0 + rl.window)
        exact le_trans hnow (le_max_left _ _)
    · rw [if_neg hblock]
      refine ⟨fun _ => rfl, ?_, ?_, hnow, rfl, rfl⟩
      · show ((rl.requests.filter (fun req => req + rl.window > now)) ++ [now]).length ≤
          rl.maxRequests + 1
        simp only [List.length_append, List.length_singleton]
        omega
      · intro hl
        show ((rl.requests.filter (fun req => req + rl.window > now)) ++ [now]).headD 0 +
            rl.window ≤ now
        simp only [List.length_append, List.length_singleton] at hl
        omega

/-- Witness for the amended C6: a post-blocked state with eleven stamps,
called again after the window has passed, prunes down and records one
request. -/
theorem rateLimiter_wait_spec_witness :
    1 ≤ NewRateLimiter.maxRequests ∧
    ((RateLimiter.wait
      { NewRateLimiter with requests := List.replicate 11 0 } 60).1).requests =
        [60] := by
  have h := rateLimiter_wait_spec
    { NewRateLimiter with requests := List.replicate 11 0 } 60 60
    (by decide) (by decide) (by intro h; decide) (by omega)
  refine ⟨by decide, ?_⟩
  rw [h.1 (by decide)]
  decide

/-- Outcome of `cmd.Run()`: no error, an `*exec.ExitError` with a code, or
another error (I/O, context). -/
inductive CmdErr where
  | exitError (code : Int)
  | otherError (msg : String)
deriving DecidableEq, Repr

/-- stdout/stderr and the `cmd.Run()` error of one external invocation. -/
structure CmdResult where
  stdout : String
  stderr : String
  runErr : Option CmdErr := none
deriving DecidableEq, Repr

/-- `ClaudeExecutor.executeOnce` given the limiter state, the instant of the
call and the external command's outcome: waits on the limiter, runs the
command, classifies rate limiting from combined stdout/stderr (signalling
the limiter), extracts the exit code, and returns `(response, nil)` — the
`rate limiter error` early return fires only on a non-nil `Wait` error. -/
def executeOnce (rl : RateLimiterState) (now : Nat) (cmd : CmdResult) :
    RateLimiterState × Option ClaudeResponse × Option String :=
  match (RateLimiter.wait rl now).2.2 with
  | some e => ((RateLimiter.wait rl now).1, none, some ("rate limiter error: " ++ e))
  | none =>
    let rl1 := (RateLimiter.wait rl now).1
    let retTime := (RateLimiter.wait rl now).2.1
    let output := cmd.stdout ++ (if cmd.stderr ≠ "" then "\n" ++ cmd.stderr else "")
    let rate := IsRateLimitError output
    let rl2 := if rate then RateLimiter.setRateLimit rl1 retTime (ParseRetryAfter output)
               else rl1
    (rl2,
     some { output := output
            error := match cmd.runErr with
              | some (CmdErr.exitError c) => some ("exit status " ++ toString c)
              | some (CmdErr.otherError m) => some m
              | none => none
            exitCode := match cmd.runErr with
              | some (CmdErr.exitError c) => c
              | _ => 0
            rateLimited := rate },
     none)

/-- `RateLimiter.Wait` returns `nil` on every path. -/
lemma rateLimiter_wait_err_none (rl : RateLimiterState) (now : Nat) :
    (RateLimiter.wait rl now).2.2 = none := by
  unfold RateLimiter.wait
  split
  · rfl
  · dsimp only
    split
    · rfl
    · rfl

/-- Claim C10: since `RateLimiter.Wait` always returns `nil`, the
`rate limiter error` branch of `executeOnce` is unreachable: for every
limiter state, instant and command outcome — the command may fail with any
error and exit code — `executeOnce` returns a non-nil response paired with a
nil error (the command's failure lives only inside the response value). -/
theorem executeOnce_always_ok (rl : RateLimiterState) (now : Nat) (cmd : CmdResult) :
    (RateLimiter.wait rl now).2.2 = none ∧
    (executeOnce rl now cmd).2.1.isSome = true ∧
    (executeOnce rl now cmd).2.2 = none := by
  refine ⟨rateLimiter_wait_err_none rl now, ?_, ?_⟩
  · unfold executeOnce
    split
    case h_1 e heq => exact absurd heq (by rw [rateLimiter_wait_err_none]; simp)
    case h_2 => rfl
  · unfold executeOnce
    split
    case h_1 e heq => exact absurd heq (by rw [rateLimiter_wait_err_none]; simp)
    case h_2 => rfl

/-- Counterexample to C5 as stated: `UpdateTaskStatus` has no transition
guard — one call moves a Completed task back to Pending, so Completed is
not terminal at the registry interface. -/
theorem terminal_status_counterexample :
    (GetTask [{ id := "c1", deps := [], status := TaskStatus.completed }] "c1").map
        Task.status = some TaskStatus.completed ∧
    (GetTask ((UpdateTaskStatus
        [{ id := "c1", deps := [], status := TaskStatus.completed }] "c1"
        TaskStatus.pending 5).1) "c1").map Task.status =
      some TaskStatus.pending := by
  exact ⟨rfl, rfl⟩

/-- Claim C5 (amended): the registry does not enforce terminality of
Completed/Failed — `UpdateTaskStatus` overwrites the status with the
requested one unconditionally, whatever the previous status (stamping
`CompletedAt` only when the new status is Completed), and `SetTaskError`
forces Failed from any status.  Terminality holds in runs only as a
property of the executor's call pattern. -/
theorem updateTaskStatus_unconditional (reg : List Task) (taskID : String)
    (st : TaskStatus) (now : Nat) (h : ∃ t ∈ reg, t.id = taskID) :
    ((UpdateTaskStatus reg taskID st now).2 = none ∧
      ∀ u ∈ (UpdateTaskStatus reg taskID st now).1, u.id = taskID →
        u.status = st) ∧
    ∀ e, (SetTaskError reg taskID e).2 = none ∧
      ∀ u ∈ (SetTaskError reg taskID e).1, u.id = taskID →
        u.status = TaskStatus.failed ∧ u.error = some e := by
  constructor
  · rw [updateTaskStatus_found h]
    refine ⟨rfl, ?_⟩
    intro u hu huid
    obtain ⟨v, _, hcase⟩ := updateTask_mem hu
    rcases hcase with ⟨_, rfl⟩ | ⟨hne, rfl⟩
    · rfl
    · exact absurd huid hne
  · intro e
    rw [setTaskError_found h]
    refine ⟨rfl, ?_⟩
    intro u hu huid
    obtain ⟨v, _, hcase⟩ := updateTask_mem hu
    rcases hcase with ⟨_, rfl⟩ | ⟨hne, rfl⟩
    · exact ⟨rfl, rfl⟩
    · exact absurd huid hne

/-- Witness for the amended C5 at the counterexample input: the Completed
task is moved to Pending by `UpdateTaskStatus`. -/
theorem updateTaskStatus_unconditional_witness :
    (∃ t ∈ ([{ id := "c1", deps := [], status := TaskStatus.completed }] : List Task),
      t.id = "c1") ∧
    ∀ u ∈ (UpdateTaskStatus
        [{ id := "c1", deps := [], status := TaskStatus.completed }] "c1"
        TaskStatus.pending 5).1, u.id = "c1" → u.status = TaskStatus.pending := by
  have hex : ∃ t ∈ ([{ id := "c1", deps := [], status := TaskStatus.completed }] : List Task),
      t.id = "c1" :=
    ⟨{ id := "c1", deps := [], status := TaskStatus.completed }, by simp, rfl⟩
  exact ⟨hex, (updateTaskStatus_unconditional _ "c1" TaskStatus.pending 5 hex).1.2⟩

/-! ## `GetAllTasks` / `GetTasksByStatus`: pointer snapshots (C9)

The Go methods return `[]*types.Task`: fresh slices whose **elements** are
pointers to the registry's internal task objects.  A pointer is modelled as
the store key; a field write through the pointer updates the store. -/

/-- A `*types.Task` handed out by the registry. -/
abbrev TaskPtr := String

/-- `TaskManager.GetAllTasks`. -/
def GetAllTasks (reg : List Task) : List TaskPtr := reg.map Task.id

/-- `TaskManager.GetTasksByStatus`. -/
def GetTasksByStatus (reg : List Task) (st : TaskStatus) : List TaskPtr :=
  (reg.filter (fun t => t.status == st)).map Task.id

/-- A field write through a returned pointer (e.g. `task.Status = …`). -/
def ptrWrite (reg : List Task) (p : TaskPtr) (f : Task → Task) : List Task :=
  updateTask reg p f

lemma getTask_updateTask (reg : List Task) (p : String) (f : Task → Task)
    (hf : ∀ t, (f t).id = t.id) :
    GetTask (updateTask reg p f) p =
      (GetTask reg p).map (fun t => if (t.id == p) = true then f t else t) := by
  induction reg with
  | nil => rfl
  | cons u rest ihr =>
    show List.find? (fun t => t.id == p)
        ((if (u.id == p) = true then f u else u) :: updateTask rest p f) = _
    by_cases hc : (u.id == p) = true
    · rw [if_pos hc]
      have hfc : ((f u).id == p) = true := by rw [hf]; exact hc
      rw [List.find?_cons]
      show (match ((f u).id == p) with
        | true => some (f u)
        | false => (updateTask rest p f).find? (fun t => t.id == p)) = _
      rw [hfc]
      rw [show GetTask (u :: rest) p =
        (match (u.id == p) with
          | true => some u
          | false => rest.find? (fun t => t.id == p)) from List.find?_cons]
      rw [hc]
      have hup : u.id = p := by simpa using hc
      simp [hup]
    · have hcf : (u.id == p) = false := by simpa using hc
      rw [if_neg hc]
      rw [List.find?_cons]
      show (match (u.id == p) with
        | true => some u
        | false => (updateTask rest p f).find? (fun t => t.id == p)) = _
      rw [hcf]
      rw [show GetTask (u :: rest) p =
        (match (u.id == p) with
          | true => some u
          | false => rest.find? (fun t => t.id == p)) from List.find?_cons]
      rw [hcf]
      exact ihr

/-- Counterexample to C9 as stated: mutating the task behind the pointer
returned by `GetAllTasks` changes the registry's internal state — the
stored task flips from Pending to Completed. -/
theorem snapshot_copy_counterexample :
    GetAllTasks [{ id := "t1", deps := [] }] = ["t1"] ∧
    (GetTask [{ id := "t1", deps := [] }] "t1").map Task.status =
      some TaskStatus.pending ∧
    (GetTask (ptrWrite [{ id := "t1", deps := [] }] "t1"
        (fun t => { t with status := TaskStatus.completed })) "t1").map Task.status =
      some TaskStatus.completed := by
  exact ⟨rfl, rfl, rfl⟩

/-- Claim C9 (amended): `GetAllTasks` and `GetTasksByStatus` return freshly
allocated slices, but their elements alias the registry's internal task
objects: for every pointer `p` they return, a field write through `p` is
observable through the registry's own `GetTask` (the write lands on the
stored object, not on a copy). -/
theorem getAllTasks_aliases_store (reg : List Task) (hnd : (taskIds reg).Nodup)
    (p : TaskPtr) (hp : p ∈ GetAllTasks reg) (f : Task → Task)
    (hf : ∀ t, (f t).id = t.id) :
    (∃ t, GetTask reg p = some t ∧ GetTask (ptrWrite reg p f) p = some (f t)) ∧
    (∀ st, GetTasksByStatus reg st ⊆ GetAllTasks reg) := by
  constructor
  · obtain ⟨t, ht, htid⟩ := List.mem_map.mp hp
    have hfind : GetTask reg p = some t := by
      have hthis := find?_of_id reg hnd ht
      rw [htid] at hthis
      exact hthis
    refine ⟨t, hfind, ?_⟩
    rw [ptrWrite, getTask_updateTask reg p f hf, hfind]
    simp [htid]
  · intro st x hx
    obtain ⟨t, ht, rfl⟩ := List.mem_map.mp hx
    exact List.mem_map_of_mem Task.id (List.mem_of_mem_filter ht)

/-- Witness for the amended C9 at the counterexample input. -/
theorem getAllTasks_aliases_store_witness :
    (taskIds [{ id := "t1", deps := [] }]).Nodup ∧
    "t1" ∈ GetAllTasks [{ id := "t1", deps := [] }] ∧
    ∃ t, GetTask [{ id := "t1", deps := [] }] "t1" = some t ∧
      GetTask (ptrWrite [{ id := "t1", deps := [] }] "t1"
          (fun u => { u with status := TaskStatus.completed })) "t1" =
        some { t with status := TaskStatus.completed } := by
  refine ⟨by decide, by decide, ?_⟩
  exact (getAllTasks_aliases_store [{ id := "t1", deps := [] }] (by decide) "t1"
    (by decide) (fun u => { u with status := TaskStatus.completed })
    (fun _ => rfl)).1

/-! ## `TaskManager.AddDependency` and the DFS cycle probe (C7)

Go's `hasCycleDFS` shares one `visited` map across the whole traversal
(sibling recursive calls see each other's marks); the embedding threads the
visited list through explicitly.  Fuel bounds the recursion depth: each
recursing level marks a fresh stored id, so `reg.length + 1` dominates. -/

mutual

/-- `TaskManager.hasCycleDFS current target visited`. -/
def hasCycleDFS (reg : List Task) (fuel : Nat) (current target : String)
    (visited : List String) : Bool × List String :=
  match fuel with
  | 0 => (false, visited)
  | f+1 =>
    if current = target then (true, visited)
    else if current ∈ visited then (false, visited)
    else
      match reg.find? (fun t => t.id == current) with
      | none => (false, current :: visited)
      | some t => dfsDeps reg f t.deps target (current :: visited)
termination_by (fuel, 0)

/-- The `for _, dep := range task.Dependencies` loop of `hasCycleDFS`,
short-circuiting on the first `true`. -/
def dfsDeps (reg : List Task) (fuel : Nat) (deps : List String) (target : String)
    (visited : List String) : Bool × List String :=
  match deps with
  | [] => (false, visited)
  | d :: rest =>
    let r := hasCycleDFS reg fuel d target visited
    if r.1 then (true, r.2) else dfsDeps reg fuel rest target r.2
termination_by (fuel, deps.length + 1)

end

/-- `TaskManager.wouldCreateCycle`: DFS reachability probe from the
prospective dependency back to the dependent task. -/
def wouldCreateCycle (reg : List Task) (taskID dependsOnID : String) : Bool :=
  (hasCycleDFS reg (reg.length + 1) dependsOnID taskID []).1

/-- `TaskManager.AddDependency`: not-found checks, cycle probe, then append
the single edge; every failure returns before mutating. -/
def AddDependency (reg : List Task) (taskID dependsOnID : String) :
    List Task × Option String :=
  if existsTask reg taskID = false then
    (reg, some ("task " ++ taskID ++ " not found"))
  else if existsTask reg dependsOnID = false then
    (reg, some ("dependency task " ++ dependsOnID ++ " not found"))
  else if wouldCreateCycle reg taskID dependsOnID then
    (reg, some "adding dependency would create a cycle")
  else
    (updateTask reg taskID (fun t => { t with deps := t.deps ++ [dependsOnID] }), none)

/-- Number of stored tasks not yet visited (the DFS depth measure). -/
def freshCount (reg : List Task) (visited : List String) : Nat :=
  (reg.filter (fun t => !(visited.contains t.id))).length

lemma hasCycleDFS_zero (reg : List Task) (c tgt : String) (vis : List String) :
    hasCycleDFS reg 0 c tgt vis = (false, vis) := by
  simp [hasCycleDFS]

lemma hasCycleDFS_succ (reg : List Task) (f : Nat) (c tgt : String)
    (vis : List String) :
    hasCycleDFS reg (f+1) c tgt vis =
      if c = tgt then (true, vis)
      else if c ∈ vis then (false, vis)
      else
        match reg.find? (fun t => t.id == c) with
        | none => (false, c :: vis)
        | some t => dfsDeps reg f t.deps tgt (c :: vis) := by
  simp [hasCycleDFS]

lemma dfsDeps_nil (reg : List Task) (f : Nat) (tgt : String) (vis : List String) :
    dfsDeps reg f [] tgt vis = (false, vis) := by
  simp [dfsDeps]

lemma dfsDeps_cons (reg : List Task) (f : Nat) (d : String) (rest : List String)
    (tgt : String) (vis : List String) :
    dfsDeps reg f (d :: rest) tgt vis =
      if (hasCycleDFS reg f d tgt vis).1 then (true, (hasCycleDFS reg f d tgt vis).2)
      else dfsDeps reg f rest tgt (hasCycleDFS reg f d tgt vis).2 := by
  simp [dfsDeps]

/-- Soundness of the probe: a `true` answer exhibits reachability of the
target along dependency edges. -/
lemma dfs_true_sound (reg : List Task) (tgt : String) :
    ∀ fuel : Nat,
      (∀ c vis, (hasCycleDFS reg fuel c tgt vis).1 = true →
        Relation.ReflTransGen (dependsOn reg) c tgt) ∧
      (∀ (deps : List String) vis, (dfsDeps reg fuel deps tgt vis).1 = true →
        ∃ d ∈ deps, Relation.ReflTransGen (dependsOn reg) d tgt) := by
  intro fuel
  induction fuel with
  | zero =>
    constructor
    · intro c vis h
      rw [hasCycleDFS_zero] at h
      simp at h
    · intro deps vis h
      induction deps generalizing vis with
      | nil => rw [dfsDeps_nil] at h; simp at h
      | cons d rest ihd =>
        rw [dfsDeps_cons, hasCycleDFS_zero] at h
        simp at h
        obtain ⟨d', hd', hr⟩ := ihd vis h
        exact ⟨d', by simp [hd'], hr⟩
  | succ f ihf =>
    obtain ⟨ihDFS, ihDeps⟩ := ihf
    have hDFS : ∀ c vis, (hasCycleDFS reg (f+1) c tgt vis).1 = true →
        Relation.ReflTransGen (dependsOn reg) c tgt := by
      intro c vis h
      rw [hasCycleDFS_succ] at h
      by_cases hct : c = tgt
      · subst hct; exact Relation.ReflTransGen.refl
      · rw [if_neg hct] at h
        by_cases hcv : c ∈ vis
        · rw [if_pos hcv] at h; simp at h
        · rw [if_neg hcv] at h
          rcases hfind : reg.find? (fun t => t.id == c) with - | t
          · rw [hfind] at h; simp at h
          · rw [hfind] at h
            obtain ⟨d, hd, hr⟩ := ihDeps t.deps (c :: vis) h
            have htid : t.id = c := by
              have := List.find?_some hfind
              simpa using this
            exact Relation.ReflTransGen.head
              ⟨t, List.mem_of_find?_eq_some hfind, htid, hd⟩ hr
    refine ⟨hDFS, ?_⟩
    intro deps vis h
    induction deps generalizing vis with
    | nil => rw [dfsDeps_nil] at h; simp at h
    | cons d rest ihd =>
      rw [dfsDeps_cons] at h
      by_cases hb : (hasCycleDFS reg (f+1) d tgt vis).1 = true
      · exact ⟨d, by simp, hDFS d vis hb⟩
      · rw [if_neg (by simpa using hb)] at h
        obtain ⟨d', hd', hr⟩ := ihd (hasCycleDFS reg (f+1) d tgt vis).2 h
        exact ⟨d', by simp [hd'], hr⟩

/-- Everything the DFS added to `visited` (beyond `v0`) is fully explored:
not the target, and all dependencies of its stored task stay inside. -/
def DfsClosed (reg : List Task) (tgt : String) (v0 v1 : List String) : Prop :=
  ∀ x ∈ v1, x ∉ v0 → x ≠ tgt ∧
    ∀ t : Task, reg.find? (fun u => u.id == x) = some t → ∀ d ∈ t.deps, d ∈ v1

lemma dfsClosed_trans {reg : List Task} {tgt : String} {v0 v1 v2 : List String}
    (h12 : v1 ⊆ v2)
    (hc1 : DfsClosed reg tgt v0 v1) (hc2 : DfsClosed reg tgt v1 v2) :
    DfsClosed reg tgt v0 v2 := by
  intro x hx hx0
  by_cases hx1 : x ∈ v1
  · obtain ⟨hne, hdep⟩ := hc1 x hx1 hx0
    exact ⟨hne, fun t ht d hd => h12 (hdep t ht d hd)⟩
  · exact hc2 x hx hx1

lemma freshCount_mono (reg : List Task) {v1 v2 : List String} (h : v1 ⊆ v2) :
    freshCount reg v2 ≤ freshCount reg v1 := by
  unfold freshCount
  induction reg with
  | nil => simp
  | cons t rest iht =>
    rw [List.filter_cons, List.filter_cons]
    by_cases h2 : (!(v2.contains t.id)) = true
    · have h1 : (!(v1.contains t.id)) = true := by
        simp [List.contains, List.elem_iff] at h2 ⊢
        exact fun hm => h2 (h hm)
      rw [if_pos h2, if_pos h1]
      simpa using iht
    · rw [if_neg h2]
      by_cases h1 : (!(v1.contains t.id)) = true
      · rw [if_pos h1]
        exact le_trans iht (by simp)
      · rw [if_neg h1]
        exact iht

lemma freshCount_cons_lt (reg : List Task) {c : String} (hc : c ∈ taskIds reg)
    {vis : List String} (hcv : c ∉ vis) :
    freshCount reg (c :: vis) < freshCount reg vis := by
  induction reg with
  | nil => simp [taskIds] at hc
  | cons t rest iht =>
    unfold freshCount
    rw [List.filter_cons, List.filter_cons]
    by_cases htc : t.id = c
    · have hk : (!(vis.contains t.id)) = true := by
        simp [List.contains, List.elem_iff, htc]
        exact hcv
      have hd : (!((c :: vis).contains t.id)) = false := by
        simp [List.contains, List.elem_iff, htc]
      rw [if_pos hk, if_neg (by rw [hd]; simp)]
      have hmono : freshCount rest (c :: vis) ≤ freshCount rest vis :=
        freshCount_mono rest (by intro x hx; simp [hx])
      unfold freshCount at hmono
      simp only [List.length_cons]
      omega
    · have hsame : ((c :: vis).contains t.id) = (vis.contains t.id) := by
        simp [List.contains, List.elem_iff]
        exact fun h => absurd h htc
      have hcrest : c ∈ taskIds rest := by
        simp only [taskIds, List.map_cons, List.mem_cons] at hc
        rcases hc with h | h
        · exact absurd h.symm htc
        · simpa [taskIds] using h
      have := iht hcrest
      unfold freshCount at this
      rw [hsame]
      by_cases hkv : (!(vis.contains t.id)) = true
      · rw [if_pos hkv, if_pos hkv]
        simp only [List.length_cons]
        omega
      · rw [if_neg hkv, if_neg hkv]
        exact this

/-- Master invariant for a `false` probe answer: the final visited set
contains the start, grew monotonically, and is dependency-closed away from
the target. -/
lemma dfs_false_invariant (reg : List Task) (tgt : String) :
    ∀ fuel : Nat,
      (∀ c vis, freshCount reg vis < fuel →
        (hasCycleDFS reg fuel c tgt vis).1 = false →
        vis ⊆ (hasCycleDFS reg fuel c tgt vis).2 ∧
        c ∈ (hasCycleDFS reg fuel c tgt vis).2 ∧ c ≠ tgt ∧
        DfsClosed reg tgt vis (hasCycleDFS reg fuel c tgt vis).2) ∧
      (∀ (deps : List String) vis, freshCount reg vis < fuel →
        (dfsDeps reg fuel deps tgt vis).1 = false →
        vis ⊆ (dfsDeps reg fuel deps tgt vis).2 ∧
        DfsClosed reg tgt vis (dfsDeps reg fuel deps tgt vis).2 ∧
        ∀ d ∈ deps, d ∈ (dfsDeps reg fuel deps tgt vis).2 ∧ d ≠ tgt) := by
  intro fuel
  induction fuel with
  | zero =>
    exact ⟨fun c vis h => absurd h (by omega), fun deps vis h => absurd h (by omega)⟩
  | succ f ihf =>
    obtain ⟨ihDFS, ihDeps⟩ := ihf
    have hDFS : ∀ c vis, freshCount reg vis < f + 1 →
        (hasCycleDFS reg (f+1) c tgt vis).1 = false →
        vis ⊆ (hasCycleDFS reg (f+1) c tgt vis).2 ∧
        c ∈ (hasCycleDFS reg (f+1) c tgt vis).2 ∧ c ≠ tgt ∧
        DfsClosed reg tgt vis (hasCycleDFS reg (f+1) c tgt vis).2 := by
      intro c vis hfc hfalse
      rw [hasCycleDFS_succ] at hfalse ⊢
      by_cases hct : c = tgt
      · rw [if_pos hct] at hfalse; simp at hfalse
      · rw [if_neg hct] at hfalse ⊢
        by_cases hcv : c ∈ vis
        · rw [if_pos hcv] at hfalse ⊢
          exact ⟨by intro x hx; exact hx, hcv, hct, by intro x hx hx0; exact absurd hx hx0⟩
        · rw [if_neg hcv] at hfalse ⊢
          rcases hfind : reg.find? (fun t => t.id == c) with - | t
          · rw [hfind] at hfalse ⊢
            refine ⟨by intro x hx; simp [hx], by simp, hct, ?_⟩
            intro x hx hx0
            have hxc : x = c := by
              rcases List.mem_cons.mp hx with h | h
              · exact h
              · exact absurd h hx0
            subst hxc
            refine ⟨hct, ?_⟩
            intro t' ht'
            rw [hfind] at ht'
            exact absurd ht' (by simp)
          · rw [hfind] at hfalse ⊢
            have htid : t.id = c := by
              have := List.find?_some hfind
              simpa using this
            have hcid : c ∈ taskIds reg :=
              htid ▸ List.mem_map_of_mem Task.id (List.mem_of_find?_eq_some hfind)
            have hfc2 : freshCount reg (c :: vis) < f := by
              have := freshCount_cons_lt reg hcid hcv
              omega
            obtain ⟨hsub, hcl, hdeps⟩ := ihDeps t.deps (c :: vis) hfc2 hfalse
            refine ⟨?_, hsub (by simp), hct, ?_⟩
            · intro x hx
              exact hsub (by simp [hx])
            · intro x hx hx0
              by_cases hxc : x = c
              · subst hxc
                refine ⟨hct, ?_⟩
                intro t' ht' d hd
                rw [hfind] at ht'
                have ht'' : t = t' := by
                  simpa using ht'
                exact (hdeps d (ht'' ▸ hd)).1
              · by_cases hxcv : x ∈ c :: vis
                · rcases List.mem_cons.mp hxcv with h | h
                  · exact absurd h hxc
                  · exact absurd h hx0
                · exact hcl x hx hxcv
    refine ⟨hDFS, ?_⟩
    intro deps vis hfc hfalse
    induction deps generalizing vis with
    | nil =>
      rw [dfsDeps_nil] at hfalse ⊢
      exact ⟨by intro x hx; exact hx, by intro x hx hx0; exact absurd hx hx0,
        by intro d hd; simp at hd⟩
    | cons d rest ihd =>
      rw [dfsDeps_cons] at hfalse ⊢
      by_cases hb : (hasCycleDFS reg (f+1) d tgt vis).1 = true
      · rw [if_pos hb] at hfalse; simp at hfalse
      · have hbf : (hasCycleDFS reg (f+1) d tgt vis).1 = false := by
          simpa using hb
        rw [if_neg hb] at hfalse ⊢
        obtain ⟨hsub1, hd1, hdne, hcl1⟩ := hDFS d vis hfc hbf
        have hfc2 : freshCount reg (hasCycleDFS reg (f+1) d tgt vis).2 < f + 1 := by
          have := freshCount_mono reg hsub1
          omega
        obtain ⟨hsub2, hcl2, hrest⟩ := ihd (hasCycleDFS reg (f+1) d tgt vis).2 hfc2 hfalse
        refine ⟨fun x hx => hsub2 (hsub1 hx), dfsClosed_trans hsub2 hcl1 hcl2, ?_⟩
        intro d' hd'
        rcases List.mem_cons.mp hd' with rfl | hd'
        · exact ⟨hsub2 hd1, hdne⟩
        · exact hrest d' hd'

/-- The cycle probe decides reachability: `wouldCreateCycle reg a b` is
`true` exactly when `a` is reachable from `b` along dependency edges, i.e.
exactly when appending the edge `a → b` would close a directed cycle. -/
lemma wouldCreateCycle_iff (reg : List Task) (hnd : (taskIds reg).Nodup)
    (a b : String) :
    wouldCreateCycle reg a b = true ↔ Relation.ReflTransGen (dependsOn reg) b a := by
  constructor
  · intro h
    exact (dfs_true_sound reg a (reg.length + 1)).1 b [] h
  · intro h
    by_contra hfalse
    rw [Bool.not_eq_true] at hfalse
    have hfc : freshCount reg [] < reg.length + 1 := by
      unfold freshCount
      have := List.length_filter_le (fun (t : Task) =>
        !(([] : List String).contains t.id)) reg
      omega
    obtain ⟨-, hbmem, -, hcl⟩ :=
      (dfs_false_invariant reg a (reg.length + 1)).1 b [] hfc hfalse
    have hwalk : ∀ x, Relation.ReflTransGen (dependsOn reg) x a →
        x ∈ (hasCycleDFS reg (reg.length + 1) b a []).2 → False := by
      intro x hx
      induction hx using Relation.ReflTransGen.head_induction_on with
      | refl =>
        intro hmem
        exact (hcl a hmem (by simp)).1 rfl
      | head hstep htail ih =>
        intro hmem
        obtain ⟨t, ht, htid, hd⟩ := hstep
        have hfind := find?_of_id reg hnd ht
        rw [htid] at hfind
        exact ih ((hcl _ hmem (by simp)).2 t hfind _ hd)
    exact hwalk b h hbmem

/-- Claim C7: `AddDependency(taskID, dependsOnID)` fails with a not-found
error when either id is absent; fails with the cycle error exactly when the
DFS probe finds the prospective dependency reaching back to the dependent
(equivalently, when the new edge would close a cycle); every failure leaves
the registry — in particular every dependency list — exactly as it was; and
only on success is the single edge appended to the dependent task. -/
theorem addDependency_spec (reg : List Task) (hnd : (taskIds reg).Nodup)
    (a b : String) :
    (existsTask reg a = false ∨ existsTask reg b = false →
      ((AddDependency reg a b).2).isSome = true ∧ (AddDependency reg a b).1 = reg) ∧
    (wouldCreateCycle reg a b = true ↔
      Relation.ReflTransGen (dependsOn reg) b a) ∧
    (wouldCreateCycle reg a b = true →
      ((AddDependency reg a b).2).isSome = true ∧ (AddDependency reg a b).1 = reg) ∧
    (existsTask reg a = true → existsTask reg b = true →
      wouldCreateCycle reg a b = false →
      AddDependency reg a b =
        (updateTask reg a (fun t => { t with deps := t.deps ++ [b] }), none)) := by
  refine ⟨?_, wouldCreateCycle_iff reg hnd a b, ?_, ?_⟩
  · rintro (ha | hb)
    · simp [AddDependency, ha]
    · by_cases ha2 : existsTask reg a = false
      · simp [AddDependency, ha2]
      · simp [AddDependency, ha2, hb]
  · intro hc
    by_cases ha2 : existsTask reg a = false
    · simp [AddDependency, ha2]
    · by_cases hb2 : existsTask reg b = false
      · simp [AddDependency, ha2, hb2]
      · simp [AddDependency, ha2, hb2, hc]
  · intro ha hb hc
    simp [AddDependency, ha, hb, hc]

/-- A one-edge acyclic registry: `a` depends on `b`. -/
def edgeTasks : List Task :=
  [ { id := "a", deps := ["b"] }, { id := "b", deps := [] } ]

/-- Witness for C7: adding `b → a` on top of the existing `a → b` is
rejected by the probe and leaves the registry unchanged, while re-adding
`a → b` passes the probe and appends exactly that edge. -/
theorem addDependency_spec_witness :
    (taskIds edgeTasks).Nodup ∧
    wouldCreateCycle edgeTasks "b" "a" = true ∧
    ((AddDependency edgeTasks "b" "a").2).isSome = true ∧
    (AddDependency edgeTasks "b" "a").1 = edgeTasks ∧
    AddDependency edgeTasks "a" "b" =
      (updateTask edgeTasks "a" (fun t => { t with deps := t.deps ++ ["b"] }), none) := by
  have hnd : (taskIds edgeTasks).Nodup := by decide
  have hcyc : wouldCreateCycle edgeTasks "b" "a" = true := by
    simp [wouldCreateCycle, hasCycleDFS, dfsDeps, edgeTasks]
  have hnocyc : wouldCreateCycle edgeTasks "a" "b" = false := by
    simp [wouldCreateCycle, hasCycleDFS, dfsDeps, edgeTasks]
  have h1 := (addDependency_spec edgeTasks hnd "b" "a").2.2.1 hcyc
  have h2 := (addDependency_spec edgeTasks hnd "a" "b").2.2.2
    (by decide) (by decide) hnocyc
  exact ⟨hnd, hcyc, h1.1, h1.2, h2⟩

/-! ## `ParallelExecutor.ExecuteTasks` error propagation -/

/-- `types.ExecutionReport` (time fields and the task-pointer slice are not
modelled; counts are). -/
structure ExecutionReport where
  totalTasks : Nat
  completedTasks : Nat := 0
  failedTasks : Nat := 0
  skippedTasks : Nat := 0
deriving DecidableEq, Repr

/-- `ParallelExecutor.updateReport`: recount Completed/Failed/Skipped from
the registry. -/
def updateReport (reg : List Task) (report : ExecutionReport) : ExecutionReport :=
  { report with
    completedTasks := (GetTasksByStatus reg TaskStatus.completed).length
    failedTasks := (GetTasksByStatus reg TaskStatus.failed).length
    skippedTasks := (GetTasksByStatus reg TaskStatus.skipped).length }

/-- `ParallelExecutor.executeBatch`, linearised: the errgroup fan-out runs
every task of the batch; `g.Wait()` reports one non-nil error if any task
returned one (modelled as the first in batch order). -/
def executeBatchGo (oracle2 : String → Nat → Except String ClaudeResponse)
    (ctxCancelled : Bool) (maxRetries now : Nat)
    (reg : List Task) (batch : List Task) : List Task × Option String :=
  batch.foldl (fun acc task =>
    let r := executeTask oracle2 ctxCancelled maxRetries now acc.1 task
    (r.1, match acc.2 with | some e => some e | none => r.2)) (reg, none)

/-- The batch loop of `ExecuteTasks`: a batch error is logged and dropped
(the Go comment reads `Continue with other batches even if one fails`), and
after every batch the report is recounted. -/
def batchLoop (oracle2 : String → Nat → Except String ClaudeResponse)
    (ctxCancelled : Bool) (maxRetries now : Nat) :
    List (List Task) → List Task × ExecutionReport → List Task × ExecutionReport
  | [], st => st
  | b :: rest, st =>
    let r := executeBatchGo oracle2 ctxCancelled maxRetries now st.1 b
    batchLoop oracle2 ctxCancelled maxRetries now rest (r.1, updateReport r.1 st.2)

/-- `ParallelExecutor.ExecuteTasks`: fails only when `GetExecutionOrder`
fails (wrapping its message); otherwise batches run via `topologicalSort`
and the call returns the report with a nil error whatever happened inside
the batches. -/
def ExecuteTasksGo (oracle2 : String → Nat → Except String ClaudeResponse)
    (ctxCancelled : Bool) (maxRetries now : Nat) (reg : List Task) :
    Except String (List Task × ExecutionReport) :=
  match GetExecutionOrder reg with
  | .error e => .error ("failed to get execution order: " ++ e)
  | .ok ordered =>
    .ok (batchLoop oracle2 ctxCancelled maxRetries now (topologicalSort ordered)
      (reg, { totalTasks := ordered.length }))

/-- An `executeOnce` outcome that always signals rate limiting: with a
cancelled context the retry loop's `select` then returns `ctx.Err()`. -/
def cancelOracle : String → Nat → Except String ClaudeResponse :=
  fun _ _ => Except.ok { output := "rate limit exceeded", rateLimited := true }

def soloTask : Task := { id := "t", deps := [] }

/-- Counterexample to C4 as stated: with the context already cancelled the
single task's execution fails with `context canceled` and the task is
recorded Failed — yet `ExecuteTasks` swallows the batch error and returns a
nil run-level error, so cancellation is not surfaced to its caller. -/
theorem executeTasks_cancellation_counterexample :
    (executeTask cancelOracle true 3 0 [soloTask] soloTask).2 =
      some "context canceled" ∧
    ExecuteTasksGo cancelOracle true 3 0 [soloTask] =
      Except.ok
        ([{ soloTask with
            status := TaskStatus.failed
            error := some "context canceled" }],
         { totalTasks := 1, failedTasks := 1 }) := by
  exact ⟨rfl, rfl⟩

/-- Claim C4 (amended): task and batch failures never abort the run — for
every oracle and context state, `ExecuteTasks` returns a non-nil error
exactly when `GetExecutionOrder` fails, wrapping its message; in every
other case, cancellation included, it returns the report with a nil
error. -/
theorem executeTasks_error_spec (oracle2 : String → Nat → Except String ClaudeResponse)
    (ctxCancelled : Bool) (maxRetries now : Nat) (reg : List Task) :
    ((ExecuteTasksGo oracle2 ctxCancelled maxRetries now reg).isOk =
      (GetExecutionOrder reg).isOk) ∧
    (∀ e, GetExecutionOrder reg = .error e →
      ExecuteTasksGo oracle2 ctxCancelled maxRetries now reg =
        .error ("failed to get execution order: " ++ e)) ∧
    (∀ ordered, GetExecutionOrder reg = .ok ordered →
      ExecuteTasksGo oracle2 ctxCancelled maxRetries now reg =
        .ok (batchLoop oracle2 ctxCancelled maxRetries now
          (topologicalSort ordered) (reg, { totalTasks := ordered.length }))) := by
  refine ⟨?_, ?_, ?_⟩
  · rcases h : GetExecutionOrder reg with e | ordered <;>
      simp [ExecuteTasksGo, h, Except.isOk, Except.toBool]
  · intro e h
    simp [ExecuteTasksGo, h]
  · intro ordered h
    simp [ExecuteTasksGo, h]

/-- Witness for C4: on the two-task cycle the order computation fails and
`ExecuteTasks` wraps the cycle message. -/
theorem executeTasks_error_spec_witness :
    GetExecutionOrder cycTasks = Except.error "dependency cycle detected" ∧
    ExecuteTasksGo cancelOracle false 3 0 cycTasks =
      Except.error ("failed to get execution order: " ++ "dependency cycle detected") := by
  exact ⟨rfl, (executeTasks_error_spec cancelOracle false 3 0 cycTasks).2.1
    "dependency cycle detected" rfl⟩

end ClaudeAuto
